import Mathlib

/-!
Verification development for the incremental code-indexing pipeline and
hybrid retrieval engine of the SemanticalCodeSearch repository.

The Python source is shallowly embedded: pure functions become Lean
functions, stateful code becomes explicit state passing, Python sets and
dicts become lists and key-unique association lists in insertion order,
fallible calls return `Except`, and external collaborators (tree-sitter,
the LLM, the embedding model, the content-hash function) are function
parameters.
-/

/-! ## Data model (src/IR/models.py) -/

/-- SnippetType enum (src/IR/models.py). -/
inductive SnippetType where
  | FUNCTION
  | CLASS
  | METHOD
  | STRUCT
  | ENUM
  | MODULE
  | FILE
  | PLACEHOLDER
deriving DecidableEq, Repr

/-- RelationType enum (src/IR/models.py). -/
inductive RelationType where
  | DEFINES
  | CALLS
  | IMPORTS
  | INHERITS
  | OVERRIDES
  | RETURNS
  | DECORATED_BY
  | MODIFIES
  | INSTANTIATES
deriving DecidableEq, Repr

/-- CodeSnippet dataclass (src/IR/models.py).  The open `metadata` map is
modelled as a key-unique association list of strings. -/
structure CodeSnippet where
  id : String
  name : String
  type : SnippetType
  content : String
  summary : Option String := none
  parent_id : Option String := none
  docstring : Option String := none
  signature : Option String := none
  file_path : Option String := none
  start_line : Option Nat := none
  end_line : Option Nat := none
  start_byte : Option Nat := none
  end_byte : Option Nat := none
  is_skeleton : Bool := false
  metadata : List (String × String) := []
deriving DecidableEq, Repr

/-- Relationship dataclass (src/IR/models.py). -/
structure Relationship where
  source_id : String
  target_id : String
  type : RelationType
  metadata : List (String × String) := []
deriving DecidableEq, Repr

/-- Truthiness of a Python `Optional[str]`: `None` and the empty string are falsy. -/
def truthy : Option String → Bool
  | none => false
  | some s => s ≠ ""

/-! ## Association lists modelling Python dicts

A Python dict is modelled as an association list whose keys are unique and
appear in insertion order; assignment replaces the value at the first (only)
occurrence of the key or appends a fresh binding at the end, exactly as dict
assignment preserves insertion order. -/

/-- Dict assignment `m[k] = v`. -/
def dictSet {α : Type} : List (String × α) → String → α → List (String × α)
  | [], k, v => [(k, v)]
  | p :: m, k, v => if p.1 = k then (k, v) :: m else p :: dictSet m k v

/-- Dict lookup with default, `m.get(k, d)`. -/
def dictGetD {α : Type} : List (String × α) → String → α → α
  | [], _, d => d
  | p :: m, k, d => if p.1 = k then p.2 else dictGetD m k d

/-- Dict lookup `m.get(k)` / `m[k]` as an `Option`. -/
def dictGet? {α : Type} : List (String × α) → String → Option α
  | [], _ => none
  | p :: m, k => if p.1 = k then some p.2 else dictGet? m k

/-- Python `k in m` key-membership test. -/
def dictHasKey {α : Type} (m : List (String × α)) (k : String) : Prop :=
  (dictGet? m k).isSome

instance {α : Type} (m : List (String × α)) (k : String) : Decidable (dictHasKey m k) := by
  unfold dictHasKey; infer_instance

/-! ## Reciprocal Rank Fusion (SearchManager._fuse_results, src/search.py lines 160-170)

`combined_scores` is a dict from candidate id to rational score; each input
list contributes `1 / (k + rank)` for ranks starting at 1, and the keys are
returned sorted descending by score.  Python `sorted(..., reverse=True)` is a
stable sort, modelled by the stable `List.insertionSort` with the reflexive
total order `score a ≥ score b`. -/

/-- One `for rank, res in enumerate(results, 1)` accumulation loop of
`_fuse_results`, carrying the current rank. -/
def rrf_add_list (k : ℚ) : List (String × ℚ) → Nat → List String → List (String × ℚ)
  | m, _, [] => m
  | m, rank, x :: rest =>
      rrf_add_list k (dictSet m x (dictGetD m x 0 + 1 / (k + (rank : ℚ)))) (rank + 1) rest

/-- Combined RRF score table for the two candidate lists (vector first, then
keyword), as built by `_fuse_results` with parameter `k`. -/
def rrf_scores (vector_results keyword_results : List String) (k : ℚ) : List (String × ℚ) :=
  rrf_add_list k (rrf_add_list k [] 1 vector_results) 1 keyword_results

/-- Combined score of one candidate id (0 when the id is in neither list). -/
def rrf_score (vector_results keyword_results : List String) (x : String) : ℚ :=
  dictGetD (rrf_scores vector_results keyword_results 60) x 0

/-- SearchManager._fuse_results: score accumulation over both candidate lists
followed by `sorted(combined_scores.keys(), key=score, reverse=True)`. -/
def fuse_results (vector_results keyword_results : List String) (k : ℚ) : List String :=
  let combined_scores := rrf_scores vector_results keyword_results k
  List.insertionSort
    (fun a b => dictGetD combined_scores a 0 ≥ dictGetD combined_scores b 0)
    (combined_scores.map Prod.fst)

/-! ## Change detection (ProjectIndexer.extract_snippets / ParserFactory.parse_directory)

The fingerprint table and per-file snippet table of `SQLiteStorage` are
modelled abstractly; the fresh content hash function and the tree-sitter
parse are collaborator parameters.  A parse that raises is an `Except.error`. -/

/-- Fingerprint and snippet tables of SQLiteStorage as consulted by change
detection (`get_file_hash`, `get_file_snippets`). -/
structure SqliteTables where
  fileHash : String → Option String
  fileSnippets : String → List CodeSnippet

/-- Mutable per-run walk state of ProjectIndexer: `all_encountered_files`
(a dict file-path → fresh hash) and the `changed_files` set. -/
structure WalkState where
  all_encountered_files : List (String × String)
  changed_files : List String
deriving DecidableEq, Repr

/-- Set insertion for `changed_files.add`. -/
def setAdd (l : List String) (x : String) : List String :=
  if x ∈ l then l else l ++ [x]

/-- should_parse_callback (src/indexer.py lines 90-100): records the fresh
hash for the file, then classifies it.  Equal stored fingerprint means the
last-persisted snippets are returned; otherwise the file joins
`changed_files` and `none` asks the factory to re-parse. -/
def should_parse_callback (sqlite : Option SqliteTables) (st : WalkState)
    (file_path content_hash : String) : Option (List CodeSnippet) × WalkState :=
  let st1 : WalkState :=
    { st with all_encountered_files := dictSet st.all_encountered_files file_path content_hash }
  match sqlite with
  | none => (none, st1)
  | some sq =>
      if sq.fileHash file_path = some content_hash then
        (some (sq.fileSnippets file_path), st1)
      else
        (none, { st1 with changed_files := setAdd st1.changed_files file_path })

/-- Per-file body of ParserFactory.parse_directory (src/parsers/factory.py
lines 61-81).  `read_result` is the outcome of opening and reading the file,
`hash` the sha256 content fingerprint, `parse_fn` the tree-sitter parse;
either failure is caught and yields no snippets for the file.  Returns the
snippets contributed to `all_snippets` and the updated walk state. -/
def process_file (hash : String → String)
    (parse_fn : String → String → Except String (List CodeSnippet))
    (sqlite : Option SqliteTables) (st : WalkState) (file_path : String)
    (read_result : Except String String) : List CodeSnippet × WalkState :=
  match read_result with
  | .error _ => ([], st)
  | .ok content =>
      let content_hash := hash content
      let r := should_parse_callback sqlite st file_path content_hash
      match r.1 with
      | some snippets => (snippets, r.2)
      | none =>
          match parse_fn content file_path with
          | .ok snippets => (snippets, r.2)
          | .error _ => ([], r.2)

/-- Fingerprint-table update loop of ProjectIndexer.save (src/indexer.py
lines 303-305): every encountered file's hash is upserted. -/
def save_file_hashes (sq : SqliteTables) (encountered : List (String × String)) : SqliteTables :=
  encountered.foldl
    (fun s p => { s with fileHash := Function.update s.fileHash p.1 (some p.2) }) sq

/-! ## Persistence (ProjectIndexer.save / ProjectIndexer.cleanup, src/indexer.py)

`save` and `cleanup` are modelled as traces of storage operations so that
ordering (delete-then-insert) and absence of writes are provable.  The
embedding vector type `E` is abstract. -/

/-- One storage operation issued by ProjectIndexer.save. -/
inductive StoreOp (E : Type) where
  | deleteSqliteSnippets (file_path : String)
  | deleteGraphData (file_path : String)
  | deleteChromaSnippets (file_path : String)
  | insertSqliteSnippets (snippets : List CodeSnippet)
  | insertGraphSnippets (snippets : List CodeSnippet)
  | insertChromaSnippets (snippets : List CodeSnippet) (vectors : List E)
  | insertRelationships (relationships : List Relationship)
  | saveFileHash (file_path content_hash : String)
deriving DecidableEq

/-- Membership of a snippet's file in `changed_files`
(`s.file_path in self.changed_files`; a `None` path is never a member). -/
def inChangedFiles (changed_files : List String) (s : CodeSnippet) : Bool :=
  match s.file_path with
  | some fp => fp ∈ changed_files
  | none => false

/-- Per-changed-file deletion loop of ProjectIndexer.save (lines 278-281):
one deletion per store per changed file, before any insertion. -/
def save_deletes {E : Type} (changed_files : List String) : List (StoreOp E) :=
  changed_files.flatMap (fun fp =>
    [StoreOp.deleteSqliteSnippets fp, StoreOp.deleteGraphData fp, StoreOp.deleteChromaSnippets fp])

/-- Snippet/vector insertion block of ProjectIndexer.save (lines 284-298):
changed snippets into SQLite and the graph store, then the aligned
(snippet, embedding) pairs with a non-null vector into Chroma. -/
def save_snippet_inserts {E : Type} (changed_files : List String)
    (snippets : List CodeSnippet)
    (embeddings : Option (List (Option E))) : List (StoreOp E) :=
  let changed_snippets := snippets.filter (inChangedFiles changed_files)
  if changed_snippets.isEmpty then []
  else
    [StoreOp.insertSqliteSnippets changed_snippets, StoreOp.insertGraphSnippets changed_snippets]
    ++ match embeddings with
       | none => []
       | some es =>
           if es.isEmpty then []
           else
             let valid_pairs := snippets.enum.filterMap (fun p =>
               if inChangedFiles changed_files p.2 then
                 (es.getD p.1 none).map (fun e => (p.2, e))
               else none)
             if valid_pairs.isEmpty then []
             else
               [StoreOp.insertChromaSnippets (valid_pairs.map Prod.fst)
                 (valid_pairs.map Prod.snd)]

/-- Fingerprint writes of ProjectIndexer.save (lines 303-305). -/
def save_hash_ops {E : Type} (all_encountered_files : List (String × String)) : List (StoreOp E) :=
  all_encountered_files.map (fun p => StoreOp.saveFileHash p.1 p.2)

/-- Operation trace of ProjectIndexer.save (src/indexer.py lines 275-305)
once the storage guard has passed: per changed file, deletion from all three
stores; then insertion of changed snippets (with vectors) into the three
stores; then all relationships; then every encountered file's hash. -/
def save_trace {E : Type} (changed_files : List String)
    (snippets : List CodeSnippet) (relationships : List Relationship)
    (embeddings : Option (List (Option E)))
    (all_encountered_files : List (String × String)) : List (StoreOp E) :=
  save_deletes changed_files
    ++ save_snippet_inserts changed_files snippets embeddings
    ++ [StoreOp.insertRelationships relationships]
    ++ save_hash_ops all_encountered_files

/-- Deletion operations of the save trace. -/
def isDeleteOp {E : Type} : StoreOp E → Prop
  | .deleteSqliteSnippets _ => True
  | .deleteGraphData _ => True
  | .deleteChromaSnippets _ => True
  | _ => False

/-- Insertion operations of the save trace (snippet rows, graph nodes,
vector entries, relationship edges). -/
def isInsertOp {E : Type} : StoreOp E → Prop
  | .insertSqliteSnippets _ => True
  | .insertGraphSnippets _ => True
  | .insertChromaSnippets _ _ => True
  | .insertRelationships _ => True
  | _ => False

/-- ProjectIndexer.save (src/indexer.py lines 270-307): raises
`RuntimeError("Storage not initialized.")` unless all three storage handles
are present (`if not all([self.sqlite, self.graph_db, self.chroma])`),
otherwise performs the `save_trace` operations in order. -/
def save {E : Type} (sqliteReady graphReady chromaReady : Bool)
    (changed_files : List String)
    (snippets : List CodeSnippet) (relationships : List Relationship)
    (embeddings : Option (List (Option E)))
    (all_encountered_files : List (String × String)) : Except String (List (StoreOp E)) :=
  if ¬ (sqliteReady ∧ graphReady ∧ chromaReady) then
    .error "Storage not initialized."
  else
    .ok (save_trace changed_files snippets relationships embeddings all_encountered_files)

/-- One deletion issued by ProjectIndexer.cleanup; SQLite and Chroma expose
`delete_file_snippets`, the graph store exposes `delete_file_data`. -/
inductive CleanupOp where
  | sqliteDeleteFileSnippets (file_path : String)
  | graphDeleteFileData (file_path : String)
  | chromaDeleteFileSnippets (file_path : String)
deriving DecidableEq, Repr

/-- File paths of the current snippets, `{s.file_path for s in current_snippets if s.file_path}`. -/
def currentFilePaths (current_snippets : List CodeSnippet) : List String :=
  current_snippets.filterMap (fun s =>
    match s.file_path with
    | some fp => if fp ≠ "" then some fp else none
    | none => none)

/-- ProjectIndexer.cleanup (src/indexer.py lines 309-323).  With no SQLite
handle it returns silently (`if not self.sqlite: return`); with a SQLite
handle but a missing graph or Chroma handle the loop raises AttributeError
on `storage.get_all_file_paths()` after the deletions already issued.  Each
store argument carries its `get_all_file_paths()` answer.  The result is the
list of deletions issued paired with the exception raised, if any. -/
def cleanup (sqlitePaths graphPaths chromaPaths : Option (List String))
    (current_snippets : List CodeSnippet) : List CleanupOp × Option String :=
  match sqlitePaths with
  | none => ([], none)
  | some sqPaths =>
      let current_files := currentFilePaths current_snippets
      let sqOps := (sqPaths.filter (fun fp => fp ∉ current_files)).map
        CleanupOp.sqliteDeleteFileSnippets
      match graphPaths with
      | none => (sqOps, some "AttributeError")
      | some gPaths =>
          let gOps := (gPaths.filter (fun fp => fp ∉ current_files)).map
            CleanupOp.graphDeleteFileData
          match chromaPaths with
          | none => (sqOps ++ gOps, some "AttributeError")
          | some cPaths =>
              let cOps := (cPaths.filter (fun fp => fp ∉ current_files)).map
                CleanupOp.chromaDeleteFileSnippets
              (sqOps ++ gOps ++ cOps, none)

/-! ## File-node synthesis (GraphManager.create_file_snippets, src/graph/manager.py)

The sha256 hash and the file read are collaborator parameters.  Python
string slicing by index is modelled on the character list. -/

/-- Python slice `content[a:b]` for 0 ≤ a, b. -/
def strSlice (content : String) (a b : Nat) : String :=
  String.mk ((content.toList.drop a).take (b - a))

/-- Python slice `content[a:]`. -/
def strSliceFrom (content : String) (a : Nat) : String :=
  String.mk (content.toList.drop a)

/-- Python `str.strip()`: whitespace removed from both ends. -/
def pyStrip (s : String) : String :=
  String.mk (((s.toList.dropWhile Char.isWhitespace).reverse.dropWhile
    Char.isWhitespace).reverse)

/-- Python `os.path.basename` for forward-slash paths: the characters after
the last `/`. -/
def basename (fp : String) : String :=
  String.mk (fp.toList.foldl (fun cur c => if c = '/' then [] else cur ++ [c]) [])

/-- Insertion-ordered grouping `snippets_by_file` keyed by truthy file path
(`if s.file_path:`), as built in create_file_snippets and build_graph. -/
def snippets_by_file (snippets : List CodeSnippet) : List (String × List CodeSnippet) :=
  snippets.foldl (fun m s =>
    match s.file_path with
    | some fp =>
        if fp ≠ "" then
          match dictGet? m fp with
          | some l => dictSet m fp (l ++ [s])
          | none => dictSet m fp [s]
        else m
    | none => m) []

/-- Skeleton-assembly loop of create_file_snippets (src/graph/manager.py
lines 107-126): walks the sorted top-level skeletons, splicing verbatim
leading material and an elision marker after each signature. -/
def buildFileSkeleton (content : String) (top_level_skeletons : List CodeSnippet) : String :=
  let r := top_level_skeletons.foldl
    (fun (acc : String × Nat) s =>
      match s.start_byte, s.end_byte with
      | some sb, some eb =>
          (acc.1 ++ strSlice content acc.2 sb ++ pyStrip s.content
             ++ "\n    ... # implementation hidden ...\n", eb)
      | _, _ => acc)
    ("", 0)
  r.1 ++ strSliceFrom content r.2

/-- Body of create_file_snippets for one file group: the stable sort of
top-level skeletons by `start_byte` (absent treated as 0) followed by the
file-snippet construction with the path-derived stable id. -/
def mkFileSnippet (sha256 : String → String) (file_path content : String)
    (file_elements : List CodeSnippet) : CodeSnippet :=
  let file_id := sha256 ("file:" ++ file_path)
  let top_level_skeletons := List.insertionSort
    (fun a b => (a.start_byte.getD 0) ≤ (b.start_byte.getD 0))
    (file_elements.filter (fun s => s.is_skeleton ∧ s.parent_id = none))
  { id := file_id
    name := basename file_path
    type := SnippetType.FILE
    content := buildFileSkeleton content top_level_skeletons
    file_path := some file_path
    start_line := some 0
    end_line := some (content.toList.count '\n')
    start_byte := some 0
    end_byte := some content.toList.length
    is_skeleton := true }

/-- Per-file-group body of create_file_snippets: skip an unchanged file that
already carries a FILE snippet loaded from the store, otherwise read the
file (a failed read skips the file, line 140-142) and append its file node. -/
def create_file_snippets_step (sha256 : String → String)
    (readFile : String → Except String String)
    (changed_files : Option (List String))
    (acc : List CodeSnippet) (g : String × List CodeSnippet) : List CodeSnippet :=
  let file_path := g.1
  let file_elements := g.2
  let existing_file_snippet := file_elements.find? (fun s => s.type = SnippetType.FILE)
  if changed_files.isSome ∧ (∀ cf ∈ changed_files, file_path ∉ cf)
      ∧ existing_file_snippet.isSome then
    acc
  else
    match readFile file_path with
    | .error _ => acc
    | .ok content => acc ++ [mkFileSnippet sha256 file_path content file_elements]

/-- GraphManager.create_file_snippets (src/graph/manager.py lines 72-144):
groups snippets by file and runs the per-group synthesis in order. -/
def create_file_snippets (sha256 : String → String)
    (readFile : String → Except String String)
    (snippets : List CodeSnippet) (changed_files : Option (List String)) : List CodeSnippet :=
  (snippets_by_file snippets).foldl (create_file_snippets_step sha256 readFile changed_files) []

/-! ## Orphan linking (ProjectIndexer._link_orphan_snippets, src/indexer.py lines 339-352) -/

/-- Last snippet in the list with the given id, i.e. the value of the
last-writer-wins dict `{s.id: s for s in snippets}` at that key. -/
def lastWithId (snippets : List CodeSnippet) (i : String) : Option CodeSnippet :=
  (snippets.filter (fun s => s.id = i)).getLast?

/-- Value of `{s.file_path: s.id for s in snippets if s.type == FILE}` at a
(possibly None) file-path key: the id of the last FILE snippet carrying it. -/
def fileIdMap (snippets : List CodeSnippet) (fp : Option String) : Option String :=
  ((snippets.filter (fun s => s.type = SnippetType.FILE ∧ s.file_path = fp)).getLast?).map
    (fun s => s.id)

/-- Python `parent.signature or parent.name`. -/
def signatureOrName (parent : CodeSnippet) : String :=
  match parent.signature with
  | some sg => if sg ≠ "" then sg else parent.name
  | none => parent.name

/-- Per-snippet body of _link_orphan_snippets: re-parent a non-file snippet
whose file has a file node when its parent id is falsy or absent from the
snippet set, then record the parent signature metadata. -/
def linkOne (fileIds : Option String → Option String)
    (idPresent : String → Bool) (lookupById : String → Option CodeSnippet)
    (s : CodeSnippet) : CodeSnippet :=
  let s1 :=
    if s.type ≠ SnippetType.FILE ∧ (fileIds s.file_path).isSome then
      if ¬ truthy s.parent_id ∨ (∀ p, s.parent_id = some p → ¬ idPresent p) then
        { s with parent_id := fileIds s.file_path }
      else s
    else s
  match s1.parent_id with
  | some p =>
      if p ≠ "" then
        match lookupById p with
        | some parent =>
            { s1 with metadata := dictSet s1.metadata "parent_signature" (signatureOrName parent) }
        | none => s1
      else s1
  | none => s1

/-- ProjectIndexer._link_orphan_snippets: builds the file-id and id maps over
the whole list, then rewrites each snippet in place. -/
def link_orphan_snippets (snippets : List CodeSnippet) : List CodeSnippet :=
  snippets.map (linkOne (fileIdMap snippets)
    (fun p => (lastWithId snippets p).isSome) (lastWithId snippets))

/-! ## Parser snippet ids and the parse cache (src/parsers/python_parser.py,
src/parsers/base_parser.py)

The tree-sitter query/extraction stage (lines 54-69 of python_parser.py) is
a deterministic collaborator `extract` of the code text and file path; the
id derivation of `_create_snippet` is embedded concretely.  Python string
interpolation renders `None` for absent values. -/

/-- Python `str()` of an `Optional[str]` as interpolated in an f-string. -/
def pyStrOpt : Option String → String
  | none => "None"
  | some s => s

/-- Python `str()` of an `Optional[int]` as interpolated in an f-string. -/
def pyStrOptNat : Option Nat → String
  | none => "None"
  | some n => toString n

/-- Id base string of PythonParser._create_snippet (src/parsers/python_parser.py
lines 159-162): `f"{file_path}:{node.start_byte}:{chunk_index}:{content_for_id}"`. -/
def snippet_id_base (file_path : Option String) (start_byte : Nat)
    (chunk_index : Option Nat) (content_for_id : String) : String :=
  pyStrOpt file_path ++ ":" ++ toString start_byte ++ ":"
    ++ pyStrOptNat chunk_index ++ ":" ++ content_for_id

/-- Snippet id: sha256 of the id base. -/
def mk_snippet_id (sha256 : String → String) (file_path : Option String)
    (start_byte : Nat) (chunk_index : Option Nat) (content_for_id : String) : String :=
  sha256 (snippet_id_base file_path start_byte chunk_index content_for_id)

/-- Mutable caches of BaseParser (src/parsers/base_parser.py lines 10-14);
the tree objects themselves are external, so `_tree_cache` keeps only its
key set. -/
structure ParserState where
  tree_cache_keys : List String
  code_cache : List (String × String)
  snippet_cache : List (String × List CodeSnippet)
  content_hash_cache : List (String × String)
deriving DecidableEq, Repr

/-- Fresh parser state (all caches empty). -/
def ParserState.empty : ParserState :=
  { tree_cache_keys := [], code_cache := [], snippet_cache := [], content_hash_cache := [] }

/-- BaseParser.get_cached_snippets (src/parsers/base_parser.py lines 28-38):
when the path is present in the content-hash cache with the same hash, the
cached snippets (possibly absent) are returned untouched; otherwise — the
path absent or the hash different — the fresh hash is recorded and nothing
is returned. -/
def get_cached_snippets (hash : String → String) (st : ParserState)
    (file_path code : String) : Option (List CodeSnippet) × ParserState :=
  let content_hash := hash code
  if dictGet? st.content_hash_cache file_path = some content_hash then
    (dictGet? st.snippet_cache file_path, st)
  else
    (none, { st with content_hash_cache := dictSet st.content_hash_cache file_path content_hash })

/-- PythonParser.parse_file (src/parsers/python_parser.py lines 37-74) around
the collaborator `extract` standing for the tree-sitter query captures and
`_extract_snippets` (a pure function of code and path): consult the snippet
cache for a truthy path, otherwise parse, record tree/code caches, and cache
the produced snippets. -/
def parse_file (hash : String → String)
    (extract : String → Option String → List CodeSnippet)
    (st : ParserState) (code : String) (file_path : Option String) :
    List CodeSnippet × ParserState :=
  match file_path with
  | some fp =>
      if fp ≠ "" then
        let c := get_cached_snippets hash st fp code
        match c.1 with
        | some cached => (cached, c.2)
        | none =>
            let st2 := { c.2 with
              tree_cache_keys := if fp ∈ c.2.tree_cache_keys then c.2.tree_cache_keys
                                 else c.2.tree_cache_keys ++ [fp]
              code_cache := dictSet c.2.code_cache fp code }
            let snippets := extract code file_path
            (snippets, { st2 with snippet_cache := dictSet st2.snippet_cache fp snippets })
      else
        (extract code file_path, st)
  | none => (extract code file_path, st)

/-! ## Hierarchical summarization scheduler (ProjectIndexer.summarize_snippets,
src/indexer.py lines 122-232)

The concurrent scheduler is modelled as a labelled transition system.  A
batch of ready snippet ids is first submitted to the worker pool, later its
`process_batch` body runs (marking `needs_llm` under the lock), and finally
the main loop consumes its completed ids one at a time, decrementing the
parent in-degree and enqueuing parents that reach zero.  Interleaving of
these phases across batches over-approximates every thread schedule of the
source.  In-degrees are integers, as in Python, so the self-loop decrement
at completion can drive a count to -1. -/

/-- Dict `{s.id: s for s in snippets}` deduplication (first-occurrence key
order, last-written value), as `unique_snippets` in summarize_snippets. -/
def dedupe_by_id (snippets : List CodeSnippet) : List CodeSnippet :=
  (snippets.foldl (fun m s => dictSet m s.id s) []).map Prod.snd

/-- Static dependency graph built by summarize_snippets lines 142-152:
deduplicated ids, the parent map, and the child lists (a self-referential
parent link is skipped, so never contributes an edge or an in-degree). -/
structure SchedGraph where
  ids : List String
  parentOf : String → Option String
  children : String → List String

/-- The dependency graph of a snippet list. -/
def buildSchedGraph (snippets : List CodeSnippet) : SchedGraph :=
  let uniq := dedupe_by_id snippets
  let idList := uniq.map (fun s => s.id)
  { ids := idList
    parentOf := fun i => ((uniq.filter (fun s => s.id = i)).getLast?).bind (fun s => s.parent_id)
    children := fun p =>
      ((uniq.filter (fun s => s.parent_id = some p ∧ p ≠ "" ∧ p ∈ idList ∧ s.id ≠ p)).map
        (fun s => s.id)) }

/-- Seed of the `needs_llm` set (line 145): every snippet of a changed file
or without a summary. -/
def needsSeed (snippets : List CodeSnippet) (changed_files : List String) : List String :=
  ((dedupe_by_id snippets).filter
    (fun s => inChangedFiles changed_files s ∨ ¬ truthy s.summary)).map (fun s => s.id)

/-- Scheduler state: the ready pool, integer in-degrees, submitted batches
whose `process_batch` body has not yet run, executed batches whose completed
ids have not yet been consumed, the `summarized_ids` set, and `needs_llm`. -/
structure SchedState where
  ready : List String
  indeg : String → Int
  submitted : List (List String)
  executed : List (List String)
  processed : List String
  needs : List String

/-- Initial scheduler state (lines 144-163). -/
def initState (G : SchedGraph) (seed : List String) : SchedState :=
  { ready := G.ids.filter (fun i => (G.children i).length = 0)
    indeg := fun i => ((G.children i).length : Int)
    submitted := []
    executed := []
    processed := []
    needs := seed }

/-- Set insertion into `needs_llm`. -/
def needsAdd (needs : List String) (x : String) : List String :=
  if x ∈ needs then needs else x :: needs

/-- Marking step of `process_batch` (lines 171-181) for one batch member:
the snippet is (re)marked when itself or any child is in `needs_llm`. -/
def markOne (G : SchedGraph) (needs : List String) (sid : String) : List String :=
  if sid ∈ needs ∨ (G.children sid).any (fun c => c ∈ needs) then needsAdd needs sid
  else needs

/-- Marking loop of `process_batch` over the whole batch, in batch order. -/
def markBatch (G : SchedGraph) (needs : List String) (batch : List String) : List String :=
  batch.foldl (markOne G) needs

/-- Completion handling for one id of a finished future (lines 209-221):
add to `summarized_ids`, decrement the parent in-degree when the parent id
is truthy and present, and enqueue a parent reaching in-degree zero. -/
def completeOne (G : SchedGraph) (s : SchedState) (sid : String) : SchedState :=
  if sid ∈ s.processed then s
  else
    let s1 := { s with processed := sid :: s.processed }
    match G.parentOf sid with
    | none => s1
    | some p =>
        if p ≠ "" ∧ p ∈ G.ids then
          let s2 := { s1 with indeg := Function.update s1.indeg p (s1.indeg p - 1) }
          if s2.indeg p = 0 then { s2 with ready := s2.ready ++ [p] } else s2
        else s1

/-- Labelled transitions of the scheduler.  `submit` drains one batch of at
most `bs` ids from the ready pool into the worker pool (line 196-199);
`execBatch` runs the `process_batch` body of a submitted batch, marking
`needs_llm` (lines 167-188); `consumeOne` lets the main loop consume the
next completed id of an executed batch (lines 207-221). -/
inductive SchedStep (G : SchedGraph) (bs : Nat) : SchedState → SchedState → Prop
  | submit (s : SchedState) (h : s.ready ≠ []) :
      SchedStep G bs s
        { s with ready := s.ready.drop bs, submitted := s.ready.take bs :: s.submitted }
  | execBatch (s : SchedState) (b : List String) (h : b ∈ s.submitted) :
      SchedStep G bs s
        { s with submitted := s.submitted.erase b,
                 executed := b :: s.executed,
                 needs := markBatch G s.needs b }
  | consumeOne (s : SchedState) (sid : String) (rest : List String)
      (pre post : List (List String))
      (h : s.executed = pre ++ (sid :: rest) :: post) :
      SchedStep G bs
        s (completeOne G { s with executed := pre ++ rest :: post } sid)

/-- Reachability of the scheduler from the initial state of a snippet list. -/
def SchedReach (G : SchedGraph) (bs : Nat) (seed : List String) (s : SchedState) : Prop :=
  Relation.ReflTransGen (SchedStep G bs) (initState G seed) s

/-- Child relation of the dependency graph; `Acc (childRel G)` states that a
node sits above no containment cycle (the non-cyclic nodes of the claims). -/
def childRel (G : SchedGraph) (c p : String) : Prop :=
  c ∈ G.children p

/-! ## Ancestor chains over a snippet list (for orphan linking) -/

/-- Parent of a snippet resolved against the last-writer-wins id map of a
snippet list. -/
def parentLookup (l : List CodeSnippet) (s : CodeSnippet) : Option CodeSnippet :=
  match s.parent_id with
  | some p => lastWithId l p
  | none => none

/-- Iterated parent steps: `ancIter l n s` is the n-th ancestor of `s` along
`parentLookup`, when every step resolves. -/
def ancIter (l : List CodeSnippet) : Nat → CodeSnippet → Option CodeSnippet
  | 0, s => some s
  | n + 1, s =>
      match parentLookup l s with
      | some t => ancIter l n t
      | none => none

/-! ## Scheduler invariants and measure -/

/-- One containment step of the dependency graph: `a` is a child of `b` that
actually contributes an edge (truthy, present, non-self parent link). -/
def parentLink (G : SchedGraph) (a b : String) : Prop :=
  G.parentOf a = some b ∧ b ≠ "" ∧ b ∈ G.ids ∧ a ≠ b ∧ a ∈ G.ids

/-- Well-formedness of a scheduler dependency graph, satisfied by
`buildSchedGraph`. -/
structure GraphWF (G : SchedGraph) : Prop where
  idsNodup : G.ids.Nodup
  childrenNodup : ∀ p, (G.children p).Nodup
  mem_children_iff : ∀ c p, c ∈ G.children p ↔ parentLink G c p

/-- Every id currently tracked by the scheduler, each phase once. -/
def schedIds (s : SchedState) : List String :=
  s.ready ++ s.submitted.flatten ++ s.executed.flatten ++ s.processed

/-- Inductive invariant of the scheduler transition system. -/
structure SchedInv (G : SchedGraph) (s : SchedState) : Prop where
  nodupAll : (schedIds s).Nodup
  memIds : ∀ x ∈ schedIds s, x ∈ G.ids
  childDone : ∀ p ∈ schedIds s, ∀ c ∈ G.children p, c ∈ s.processed
  indegEq : ∀ p, s.indeg p =
      (((G.children p).filter (fun c => c ∉ s.processed)).length : Int) -
      (if G.parentOf p = some p ∧ p ≠ "" ∧ p ∈ s.processed then 1 else 0)
  zeroLoc : ∀ p ∈ G.ids, p ∉ s.processed → (∀ c ∈ G.children p, c ∈ s.processed) →
      p ∈ s.ready ∨ p ∈ s.submitted.flatten ∨ p ∈ s.executed.flatten
  subNonempty : ∀ b ∈ s.submitted, b ≠ []
  needsClosed : ∀ p, (p ∈ s.executed.flatten ∨ p ∈ s.processed) →
      ∀ c ∈ G.children p, c ∈ s.needs → p ∈ s.needs
  accProcessed : ∀ p ∈ s.processed, Acc (childRel G) p

/-- Variant measure of the scheduler: unborn ids weigh 4, ready 3, submitted
2, executed 1, processed 0; every step strictly decreases it. -/
def schedMeasure (G : SchedGraph) (s : SchedState) : Nat :=
  4 * (G.ids.filter (fun i => i ∉ schedIds s)).length
    + 3 * s.ready.length
    + 2 * s.submitted.flatten.length
    + s.executed.flatten.length

/-! ## Concrete scheduler scenarios -/

/-- File-level snippet of a three-level containment chain L -> M -> F. -/
def C1snipF : CodeSnippet :=
  { id := "F"
    name := "f.py"
    type := SnippetType.FILE
    content := "c"
    summary := some "old"
    parent_id := none
    file_path := some "f.py" }

/-- Middle snippet of the chain, child of the file node. -/
def C1snipM : CodeSnippet :=
  { id := "M"
    name := "Outer"
    type := SnippetType.CLASS
    content := "class Outer: ..."
    summary := some "old"
    parent_id := some "F"
    file_path := some "f.py" }

/-- Leaf snippet of the chain, child of M. -/
def C1snipL : CodeSnippet :=
  { id := "L"
    name := "leaf"
    type := SnippetType.METHOD
    content := "def leaf(self): ..."
    summary := some "old"
    parent_id := some "M"
    file_path := some "f.py" }

/-- The chain scenario's snippet list. -/
def C1snips : List CodeSnippet := [C1snipL, C1snipM, C1snipF]

/-- Dependency graph of the chain scenario. -/
def C1G : SchedGraph := buildSchedGraph C1snips

/-- Seed of the chain scenario: the whole file changed. -/
def C1seed : List String := needsSeed C1snips ["f.py"]

/-- Initial in-degrees of the chain scenario. -/
def C1ind0 : String → Int := fun i => ((C1G.children i).length : Int)

/-- In-degrees after L completes. -/
def C1ind1 : String → Int := Function.update C1ind0 "M" (C1ind0 "M" - 1)

/-- In-degrees after M completes. -/
def C1ind2 : String → Int := Function.update C1ind1 "F" (C1ind1 "F" - 1)

/-- Terminal scheduler state of the chain scenario run with batch size 1. -/
def C1final : SchedState :=
  { ready := []
    indeg := C1ind2
    submitted := []
    executed := [[], [], []]
    processed := ["F", "M", "L"]
    needs := ["L", "M", "F"] }

/-- Cycle scenario: a and b are mutual parents. -/
def C2snipA : CodeSnippet :=
  { id := "a"
    name := "a"
    type := SnippetType.CLASS
    content := "x"
    summary := some "s"
    parent_id := some "b"
    file_path := some "a.py" }

/-- Cycle scenario: b points back to a. -/
def C2snipB : CodeSnippet :=
  { id := "b"
    name := "b"
    type := SnippetType.CLASS
    content := "y"
    summary := some "s"
    parent_id := some "a"
    file_path := some "a.py" }

/-- Cycle scenario: c is its own parent. -/
def C2snipC : CodeSnippet :=
  { id := "c"
    name := "c"
    type := SnippetType.FUNCTION
    content := "z"
    summary := some "s"
    parent_id := some "c"
    file_path := some "a.py" }

/-- Cycle scenario: d is an ordinary parentless snippet. -/
def C2snipD : CodeSnippet :=
  { id := "d"
    name := "d"
    type := SnippetType.FUNCTION
    content := "w"
    summary := some "s"
    parent_id := none
    file_path := some "a.py" }

/-- Snippet list containing a mutual-parent cycle and a self-parent link. -/
def C2snips : List CodeSnippet := [C2snipA, C2snipB, C2snipC, C2snipD]

/-! ## Lemmas on the dict model -/

theorem dictGetD_dictSet_self {α : Type} (m : List (String × α)) (k : String) (v d : α) :
    dictGetD (dictSet m k v) k d = v := by
  induction m with
  | nil => simp [dictSet, dictGetD]
  | cons p m ih =>
      by_cases h : p.1 = k
      · simp [dictSet, dictGetD, h]
      · simp [dictSet, dictGetD, h, ih]

theorem dictGetD_dictSet_ne {α : Type} (m : List (String × α)) (k x : String) (v d : α)
    (h : x ≠ k) : dictGetD (dictSet m k v) x d = dictGetD m x d := by
  have hkx : ¬ (k = x) := fun h2 => h h2.symm
  induction m with
  | nil => simp [dictSet, dictGetD, hkx]
  | cons p m ih =>
      by_cases hp : p.1 = k
      · simp [dictSet, dictGetD, hp, hkx]
      · simp [dictSet, dictGetD, hp, ih]

theorem mem_keys_dictSet {α : Type} (m : List (String × α)) (k x : String) (v : α) :
    x ∈ (dictSet m k v).map Prod.fst ↔ x ∈ m.map Prod.fst ∨ x = k := by
  induction m with
  | nil => simp [dictSet]
  | cons p m ih =>
      by_cases h : p.1 = k
      · subst h
        simp [dictSet]
        tauto
      · simp [dictSet, h, ih]
        tauto

theorem dictGet?_dictSet_self {α : Type} (m : List (String × α)) (k : String) (v : α) :
    dictGet? (dictSet m k v) k = some v := by
  induction m with
  | nil => simp [dictSet, dictGet?]
  | cons p m ih =>
      by_cases h : p.1 = k
      · simp [dictSet, dictGet?, h]
      · simp [dictSet, dictGet?, h, ih]

theorem dictGet?_dictSet_ne {α : Type} (m : List (String × α)) (k x : String) (v : α)
    (h : x ≠ k) : dictGet? (dictSet m k v) x = dictGet? m x := by
  have hkx : ¬ (k = x) := fun h2 => h h2.symm
  induction m with
  | nil => simp [dictSet, dictGet?, hkx]
  | cons p m ih =>
      by_cases hp : p.1 = k
      · simp [dictSet, dictGet?, hp, hkx]
      · simp [dictSet, dictGet?, hp, ih]

/-! ## Lemmas on Reciprocal Rank Fusion -/

theorem rrf_add_list_not_mem (k : ℚ) (m : List (String × ℚ)) (r : Nat) (l : List String)
    (x : String) (d : ℚ) (hx : x ∉ l) :
    dictGetD (rrf_add_list k m r l) x d = dictGetD m x d := by
  induction l generalizing m r with
  | nil => simp [rrf_add_list]
  | cons y rest ih =>
      have hxy : x ≠ y := fun h => hx (h ▸ List.mem_cons_self y rest)
      have hxr : x ∉ rest := fun h => hx (List.mem_cons_of_mem y h)
      simp only [rrf_add_list]
      rw [ih _ _ hxr, dictGetD_dictSet_ne _ _ _ _ _ hxy]

theorem rrf_add_list_mem (k : ℚ) (m : List (String × ℚ)) (r : Nat) (l : List String)
    (x : String) (hl : l.Nodup) (hx : x ∈ l) :
    dictGetD (rrf_add_list k m r l) x 0 =
      dictGetD m x 0 + 1 / (k + (r : ℚ) + (l.indexOf x : ℚ)) := by
  induction l generalizing m r with
  | nil => cases hx
  | cons y rest ih =>
      rcases List.mem_cons.mp hx with hxy | hxr
      · subst hxy
        have hxrest : x ∉ rest := (List.nodup_cons.mp hl).1
        simp only [rrf_add_list]
        rw [rrf_add_list_not_mem _ _ _ _ _ _ hxrest, dictGetD_dictSet_self]
        simp [List.indexOf_cons_self]
      · have hxy : x ≠ y := by
          rintro rfl
          exact (List.nodup_cons.mp hl).1 hxr
        simp only [rrf_add_list]
        rw [ih _ _ (List.nodup_cons.mp hl).2 hxr]
        rw [dictGetD_dictSet_ne _ _ _ _ _ hxy]
        have : (List.indexOf x (y :: rest) : ℚ) = (List.indexOf x rest : ℚ) + 1 := by
          rw [List.indexOf_cons_ne _ (fun h => hxy h.symm)]
          push_cast
          ring
        rw [this]
        push_cast
        ring_nf

theorem rrf_add_list_keys (k : ℚ) (m : List (String × ℚ)) (r : Nat) (l : List String)
    (x : String) :
    x ∈ (rrf_add_list k m r l).map Prod.fst ↔ x ∈ m.map Prod.fst ∨ x ∈ l := by
  induction l generalizing m r with
  | nil => simp [rrf_add_list]
  | cons y rest ih =>
      simp only [rrf_add_list]
      rw [ih]
      rw [mem_keys_dictSet]
      simp
      tauto

/-- Claim C4 (counterexample): on the code, for vector ranks `[A,B,C]` and
keyword ranks `[B,D]`, B sits at rank 2 of the vector list and rank 1 of the
keyword list, so `score(B) = 1/62 + 1/61`, not `1/61 + 1/61` as the claim
states; B does outrank A. -/
theorem rrf_fusion_example_score_refuted :
    rrf_score ["A", "B", "C"] ["B", "D"] "B" = 1 / 62 + 1 / 61 ∧
    rrf_score ["A", "B", "C"] ["B", "D"] "B" ≠ 1 / 61 + 1 / 61 ∧
    rrf_score ["A", "B", "C"] ["B", "D"] "A" = 1 / 61 ∧
    rrf_score ["A", "B", "C"] ["B", "D"] "A" < rrf_score ["A", "B", "C"] ["B", "D"] "B" ∧
    fuse_results ["A", "B", "C"] ["B", "D"] 60 = ["B", "A", "D", "C"] := by
  refine ⟨?_, ?_, ?_, ?_, ?_⟩ <;>
    · simp [rrf_score, rrf_scores, rrf_add_list, dictSet, dictGetD, fuse_results]
      norm_num
      repeat
        first
        | rfl
        | (simp [List.insertionSort, List.orderedInsert]
           norm_num)

/-- Claim C4 (amended): Reciprocal Rank Fusion assigns each candidate id the
score sum of `1/(60 + rank)` over every candidate list in which the id
appears (ranks starting at 1), and returns the ids of both lists, and only
those, sorted descending by combined score. -/
theorem rrf_fusion_score_and_order (vec kw : List String)
    (hv : vec.Nodup) (hk : kw.Nodup) :
    (∀ x, x ∈ vec ∨ x ∈ kw →
        rrf_score vec kw x =
          (if x ∈ vec then 1 / (60 + ((vec.indexOf x : ℚ) + 1)) else 0) +
          (if x ∈ kw then 1 / (60 + ((kw.indexOf x : ℚ) + 1)) else 0)) ∧
    (∀ x, x ∈ fuse_results vec kw 60 ↔ x ∈ vec ∨ x ∈ kw) ∧
    List.Pairwise (fun a b => rrf_score vec kw a ≥ rrf_score vec kw b)
      (fuse_results vec kw 60) := by
  refine ⟨?_, ?_, ?_⟩
  · intro x hx
    unfold rrf_score rrf_scores
    by_cases hxk : x ∈ kw
    · rw [rrf_add_list_mem 60 _ 1 kw x hk hxk]
      by_cases hxv : x ∈ vec
      · rw [rrf_add_list_mem 60 _ 1 vec x hv hxv]
        simp [dictGetD, hxv, hxk]
        ring_nf
      · rw [rrf_add_list_not_mem 60 _ 1 vec x 0 hxv]
        simp [dictGetD, hxv, hxk]
        ring_nf
    · have hxv : x ∈ vec := hx.resolve_right hxk
      rw [rrf_add_list_not_mem 60 _ 1 kw x 0 hxk]
      rw [rrf_add_list_mem 60 _ 1 vec x hv hxv]
      simp [dictGetD, hxv, hxk]
      ring_nf
  · intro x
    unfold fuse_results
    constructor
    · intro hmem
      have hperm := List.perm_insertionSort
        (fun a b => dictGetD (rrf_scores vec kw 60) a 0 ≥ dictGetD (rrf_scores vec kw 60) b 0)
        ((rrf_scores vec kw 60).map Prod.fst)
      have := hperm.mem_iff.mp hmem
      unfold rrf_scores at this
      rw [rrf_add_list_keys, rrf_add_list_keys] at this
      simpa using this
    · intro hmem
      have hperm := List.perm_insertionSort
        (fun a b => dictGetD (rrf_scores vec kw 60) a 0 ≥ dictGetD (rrf_scores vec kw 60) b 0)
        ((rrf_scores vec kw 60).map Prod.fst)
      apply hperm.mem_iff.mpr
      unfold rrf_scores
      rw [rrf_add_list_keys, rrf_add_list_keys]
      simpa using hmem
  · unfold fuse_results
    haveI hTot : IsTotal String
        (fun a b => dictGetD (rrf_scores vec kw 60) a 0 ≥ dictGetD (rrf_scores vec kw 60) b 0) :=
      ⟨fun a b => le_total (dictGetD (rrf_scores vec kw 60) b 0)
        (dictGetD (rrf_scores vec kw 60) a 0)⟩
    haveI hTrans : IsTrans String
        (fun a b => dictGetD (rrf_scores vec kw 60) a 0 ≥ dictGetD (rrf_scores vec kw 60) b 0) :=
      ⟨fun _ _ _ h1 h2 => le_trans h2 h1⟩
    have hs := List.sorted_insertionSort
      (fun a b => dictGetD (rrf_scores vec kw 60) a 0 ≥ dictGetD (rrf_scores vec kw 60) b 0)
      ((rrf_scores vec kw 60).map Prod.fst)
    exact hs

/-- Concrete witness for the amended RRF theorem on the corrected example. -/
theorem rrf_fusion_score_and_order_witness :
    (∀ x, x ∈ ["A", "B", "C"] ∨ x ∈ ["B", "D"] →
        rrf_score ["A", "B", "C"] ["B", "D"] x =
          (if x ∈ ["A", "B", "C"] then 1 / (60 + ((List.indexOf x ["A", "B", "C"] : ℚ) + 1)) else 0) +
          (if x ∈ ["B", "D"] then 1 / (60 + ((List.indexOf x ["B", "D"] : ℚ) + 1)) else 0)) ∧
    (∀ x, x ∈ fuse_results ["A", "B", "C"] ["B", "D"] 60 ↔
        x ∈ ["A", "B", "C"] ∨ x ∈ ["B", "D"]) ∧
    List.Pairwise
      (fun a b => rrf_score ["A", "B", "C"] ["B", "D"] a ≥ rrf_score ["A", "B", "C"] ["B", "D"] b)
      (fuse_results ["A", "B", "C"] ["B", "D"] 60) :=
  rrf_fusion_score_and_order ["A", "B", "C"] ["B", "D"] (by decide) (by decide)

/-! ## Lemmas on change detection -/

theorem mem_setAdd_self (l : List String) (x : String) : x ∈ setAdd l x := by
  unfold setAdd
  split
  · assumption
  · exact List.mem_append_right l (List.mem_singleton.mpr rfl)

theorem save_file_hashes_cons (sq : SqliteTables) (p : String × String)
    (m : List (String × String)) :
    save_file_hashes sq (p :: m) =
      save_file_hashes { sq with fileHash := Function.update sq.fileHash p.1 (some p.2) } m :=
  rfl

theorem save_file_hashes_not_mem (sq : SqliteTables) (l : List (String × String))
    (fp : String) (h : fp ∉ l.map Prod.fst) :
    (save_file_hashes sq l).fileHash fp = sq.fileHash fp := by
  induction l generalizing sq with
  | nil => rfl
  | cons p m ih =>
      have hm : fp ∉ m.map Prod.fst := fun hx => h (List.mem_cons_of_mem _ hx)
      have hp : p.1 ≠ fp := by
        intro hx
        exact h (hx ▸ List.mem_cons_self _ _)
      rw [save_file_hashes_cons, ih _ hm]
      exact Function.update_noteq (fun hx => hp hx.symm) _ _

theorem save_file_hashes_dictSet (sq : SqliteTables) (m : List (String × String))
    (fp h : String) (hnd : (m.map Prod.fst).Nodup) :
    (save_file_hashes sq (dictSet m fp h)).fileHash fp = some h := by
  induction m generalizing sq with
  | nil =>
      show (save_file_hashes sq [(fp, h)]).fileHash fp = some h
      rw [save_file_hashes_cons]
      show Function.update sq.fileHash fp (some h) fp = some h
      simp [Function.update]
  | cons p m ih =>
      rw [List.map_cons, List.nodup_cons] at hnd
      by_cases hp : p.1 = fp
      · have hfp : fp ∉ m.map Prod.fst := hp ▸ hnd.1
        have hds : dictSet (p :: m) fp h = (fp, h) :: m := by
          rw [show dictSet (p :: m) fp h =
            (if p.1 = fp then (fp, h) :: m else p :: dictSet m fp h) from rfl, if_pos hp]
        rw [hds, save_file_hashes_cons, save_file_hashes_not_mem _ _ _ hfp]
        simp [Function.update]
      · have hds : dictSet (p :: m) fp h = p :: dictSet m fp h := by
          rw [show dictSet (p :: m) fp h =
            (if p.1 = fp then (fp, h) :: m else p :: dictSet m fp h) from rfl, if_neg hp]
        rw [hds, save_file_hashes_cons]
        exact ih _ hnd.2

/-- Claim C3: for a file encountered during the walk with the fingerprint
store present, an equal stored fingerprint returns the last-persisted
snippets without invoking the parser and without touching `changed_files`,
while a differing or absent fingerprint re-parses the file and adds it to
`changed_files`.  In both branches the fresh hash is recorded in
`all_encountered_files`. -/
theorem change_detection_classification
    (hash : String → String)
    (parse_fn : String → String → Except String (List CodeSnippet))
    (sq : SqliteTables) (st : WalkState) (fp content : String)
    (hchanged : fp ∉ st.changed_files) :
    (sq.fileHash fp = some (hash content) →
        process_file hash parse_fn (some sq) st fp (.ok content) =
          (sq.fileSnippets fp,
            { st with all_encountered_files := dictSet st.all_encountered_files fp (hash content) }) ∧
        fp ∉ (process_file hash parse_fn (some sq) st fp (.ok content)).2.changed_files ∧
        (∀ parse_fn2 : String → String → Except String (List CodeSnippet),
            process_file hash parse_fn2 (some sq) st fp (.ok content) =
              process_file hash parse_fn (some sq) st fp (.ok content))) ∧
    (sq.fileHash fp ≠ some (hash content) →
        fp ∈ (process_file hash parse_fn (some sq) st fp (.ok content)).2.changed_files ∧
        (process_file hash parse_fn (some sq) st fp (.ok content)).1 =
          (match parse_fn content fp with
           | .ok snips => snips
           | .error _ => []) ∧
        dictGet? (process_file hash parse_fn (some sq) st fp
          (.ok content)).2.all_encountered_files fp = some (hash content)) := by
  constructor
  · intro heq
    refine ⟨?_, ?_, ?_⟩
    · simp [process_file, should_parse_callback, heq]
    · simp [process_file, should_parse_callback, heq]
      exact hchanged
    · intro parse_fn2
      simp [process_file, should_parse_callback, heq]
  · intro hne
    refine ⟨?_, ?_, ?_⟩
    · simp only [process_file, should_parse_callback, if_neg hne]
      cases hp : parse_fn content fp <;> simp [hp, mem_setAdd_self]
    · simp only [process_file, should_parse_callback, if_neg hne]
      cases hp : parse_fn content fp <;> simp [hp]
    · simp only [process_file, should_parse_callback, if_neg hne]
      cases hp : parse_fn content fp <;> simp [hp, dictGet?_dictSet_self]

/-- Concrete witness for the change-detection classification theorem. -/
theorem change_detection_classification_witness :
    (let sq : SqliteTables :=
      { fileHash := fun fp => if fp = "a.py" then some "c1" else none
        fileSnippets := fun _ =>
          [{ id := "s1", name := "foo", type := SnippetType.FUNCTION,
             content := "def foo(): pass" }] }
     (sq.fileHash "a.py" = some ((fun c => c) "c1") →
        process_file (fun c => c) (fun _ _ => .ok []) (some sq)
            { all_encountered_files := [], changed_files := [] } "a.py" (.ok "c1") =
          (sq.fileSnippets "a.py",
            { all_encountered_files := dictSet [] "a.py" ((fun c => c) "c1"),
              changed_files := [] }) ∧
        "a.py" ∉ (process_file (fun c => c) (fun _ _ => .ok []) (some sq)
            { all_encountered_files := [], changed_files := [] } "a.py"
            (.ok "c1")).2.changed_files ∧
        (∀ parse_fn2 : String → String → Except String (List CodeSnippet),
            process_file (fun c => c) parse_fn2 (some sq)
                { all_encountered_files := [], changed_files := [] } "a.py" (.ok "c1") =
              process_file (fun c => c) (fun _ _ => .ok []) (some sq)
                { all_encountered_files := [], changed_files := [] } "a.py" (.ok "c1"))) ∧
     (sq.fileHash "a.py" ≠ some ((fun c => c) "c1") →
        "a.py" ∈ (process_file (fun c => c) (fun _ _ => .ok []) (some sq)
            { all_encountered_files := [], changed_files := [] } "a.py"
            (.ok "c1")).2.changed_files ∧
        (process_file (fun c => c) (fun _ _ => .ok []) (some sq)
            { all_encountered_files := [], changed_files := [] } "a.py" (.ok "c1")).1 =
          (match (fun (_ _ : String) => (Except.ok [] : Except String (List CodeSnippet)))
              "c1" "a.py" with
           | .ok snips => snips
           | .error _ => []) ∧
        dictGet? (process_file (fun c => c) (fun _ _ => .ok []) (some sq)
            { all_encountered_files := [], changed_files := [] } "a.py"
            (.ok "c1")).2.all_encountered_files "a.py" = some ((fun c => c) "c1"))) :=
  change_detection_classification (fun c => c) (fun _ _ => .ok [])
    { fileHash := fun fp => if fp = "a.py" then some "c1" else none
      fileSnippets := fun _ =>
        [{ id := "s1", name := "foo", type := SnippetType.FUNCTION,
           content := "def foo(): pass" }] }
    { all_encountered_files := [], changed_files := [] } "a.py" "c1"
    (by simp)

/-- Claim C8 (counterexample): `should_parse_callback` records the fresh hash
in `all_encountered_files` before the parse runs, and `save` writes every
recorded hash, so a file whose parse raises still has its stored fingerprint
updated to the fresh hash — not left unchanged as the claim states.  Here
the stored fingerprint "old" of `a.py` becomes "new" although parsing
failed and the file contributed no snippets. -/
theorem parse_failure_updates_fingerprint_refuted :
    (let sq : SqliteTables :=
      { fileHash := fun fp => if fp = "a.py" then some "old" else none
        fileSnippets := fun _ => [] }
     let r := process_file (fun c => c) (fun _ _ => .error "boom") (some sq)
       { all_encountered_files := [], changed_files := [] } "a.py" (.ok "new")
     r.1 = [] ∧
     r.2.all_encountered_files = [("a.py", "new")] ∧
     sq.fileHash "a.py" = some "old" ∧
     (save_file_hashes sq r.2.all_encountered_files).fileHash "a.py" = some "new" ∧
     (save_file_hashes sq r.2.all_encountered_files).fileHash "a.py" ≠ sq.fileHash "a.py") := by
  refine ⟨?_, ?_, ?_, ?_, ?_⟩ <;>
    simp [process_file, should_parse_callback, dictSet, setAdd, save_file_hashes,
      Function.update]

/-- Claim C8 (amended): when parsing a single file raises, the file is
skipped and excluded from this run's snippet set, but its fresh content hash
was already recorded in `all_encountered_files` by the callback before the
parse, so `save` updates the stored fingerprint to the fresh hash even
though parsing failed (the file is treated as unchanged on the next run
until its content changes again). -/
theorem parse_failure_excluded_but_fingerprint_recorded
    (hash : String → String)
    (parse_fn : String → String → Except String (List CodeSnippet))
    (sq : SqliteTables) (st : WalkState) (fp content e : String)
    (hfail : parse_fn content fp = .error e)
    (hmiss : sq.fileHash fp ≠ some (hash content))
    (hkeys : (st.all_encountered_files.map Prod.fst).Nodup) :
    (process_file hash parse_fn (some sq) st fp (.ok content)).1 = [] ∧
    dictGet? (process_file hash parse_fn (some sq) st fp
      (.ok content)).2.all_encountered_files fp = some (hash content) ∧
    (∀ sq2 : SqliteTables,
        (save_file_hashes sq2 (process_file hash parse_fn (some sq) st fp
          (.ok content)).2.all_encountered_files).fileHash fp = some (hash content)) := by
  refine ⟨?_, ?_, ?_⟩
  · simp [process_file, should_parse_callback, if_neg hmiss, hfail]
  · simp [process_file, should_parse_callback, if_neg hmiss, hfail, dictGet?_dictSet_self]
  · intro sq2
    simp only [process_file, should_parse_callback, if_neg hmiss, hfail]
    exact save_file_hashes_dictSet sq2 st.all_encountered_files fp (hash content) hkeys

/-- Concrete witness for the amended parse-failure theorem. -/
theorem parse_failure_excluded_but_fingerprint_recorded_witness :
    (let sq : SqliteTables :=
      { fileHash := fun fp => if fp = "a.py" then some "old" else none
        fileSnippets := fun _ => [] }
     let st : WalkState := { all_encountered_files := [], changed_files := [] }
     (process_file (fun c => c) (fun _ _ => .error "boom") (some sq) st "a.py"
        (.ok "new")).1 = [] ∧
     dictGet? (process_file (fun c => c) (fun _ _ => .error "boom") (some sq) st "a.py"
        (.ok "new")).2.all_encountered_files "a.py" = some ((fun c => c) "new") ∧
     (∀ sq2 : SqliteTables,
        (save_file_hashes sq2 (process_file (fun c => c) (fun _ _ => .error "boom")
          (some sq) st "a.py" (.ok "new")).2.all_encountered_files).fileHash "a.py" =
            some ((fun c => c) "new"))) :=
  parse_failure_excluded_but_fingerprint_recorded (fun c => c)
    (fun _ _ => .error "boom")
    { fileHash := fun fp => if fp = "a.py" then some "old" else none
      fileSnippets := fun _ => [] }
    { all_encountered_files := [], changed_files := [] } "a.py" "new" "boom"
    rfl (by simp) (by simp)

/-! ## Lemmas on the save trace -/

theorem mem_save_deletes {E : Type} (changed_files : List String) (op : StoreOp E)
    (h : op ∈ save_deletes (E := E) changed_files) : isDeleteOp op ∧ ¬ isInsertOp op := by
  unfold save_deletes at h
  rcases List.mem_flatMap.mp h with ⟨fp, _, hm⟩
  simp only [List.mem_cons, List.not_mem_nil, or_false] at hm
  rcases hm with rfl | rfl | rfl <;> simp [isDeleteOp, isInsertOp]

theorem mem_save_snippet_inserts {E : Type} (changed_files : List String)
    (snippets : List CodeSnippet) (embeddings : Option (List (Option E))) (op : StoreOp E)
    (h : op ∈ save_snippet_inserts changed_files snippets embeddings) :
    isInsertOp op ∧ ¬ isDeleteOp op := by
  unfold save_snippet_inserts at h
  simp only [] at h
  split at h
  · cases h
  · rcases List.mem_append.mp h with h1 | h1
    · simp only [List.mem_cons, List.not_mem_nil, or_false] at h1
      rcases h1 with rfl | rfl <;> simp [isDeleteOp, isInsertOp]
    · revert h1
      split
      · intro h1; cases h1
      · split
        · intro h1; cases h1
        · split
          · intro h1; cases h1
          · intro h1
            simp only [List.mem_cons, List.not_mem_nil, or_false] at h1
            subst h1
            simp [isDeleteOp, isInsertOp]

theorem mem_save_hash_ops {E : Type} (enc : List (String × String)) (op : StoreOp E)
    (h : op ∈ save_hash_ops (E := E) enc) : ¬ isDeleteOp op ∧ ¬ isInsertOp op := by
  unfold save_hash_ops at h
  rcases List.mem_map.mp h with ⟨p, _, rfl⟩
  simp [isDeleteOp, isInsertOp]

theorem mem_save_rest {E : Type} (changed_files : List String)
    (snippets : List CodeSnippet) (relationships : List Relationship)
    (embeddings : Option (List (Option E))) (enc : List (String × String)) (op : StoreOp E)
    (h : op ∈ save_snippet_inserts changed_files snippets embeddings
          ++ [StoreOp.insertRelationships relationships] ++ save_hash_ops (E := E) enc) :
    ¬ isDeleteOp op := by
  rcases List.mem_append.mp h with h1 | h1
  · rcases List.mem_append.mp h1 with h2 | h2
    · exact (mem_save_snippet_inserts _ _ _ _ h2).2
    · rw [List.mem_singleton] at h2
      subst h2
      simp [isDeleteOp]
  · exact (mem_save_hash_ops _ _ h1).1

/-- Claim C5: for every file in `changed_files`, save deletes that file's
snippet rows, graph nodes, and vector entries from all three stores, and in
the operation trace every deletion precedes every insertion, so no new
version of a changed file is inserted before the old ones are deleted. -/
theorem save_deletes_before_inserts {E : Type} (changed_files : List String)
    (snippets : List CodeSnippet) (relationships : List Relationship)
    (embeddings : Option (List (Option E))) (enc : List (String × String)) :
    save true true true changed_files snippets relationships embeddings enc =
      .ok (save_trace changed_files snippets relationships embeddings enc) ∧
    (∀ fp ∈ changed_files,
        StoreOp.deleteSqliteSnippets (E := E) fp ∈
          save_trace changed_files snippets relationships embeddings enc ∧
        StoreOp.deleteGraphData (E := E) fp ∈
          save_trace changed_files snippets relationships embeddings enc ∧
        StoreOp.deleteChromaSnippets (E := E) fp ∈
          save_trace changed_files snippets relationships embeddings enc) ∧
    (∀ (i j : Nat) (op1 op2 : StoreOp E),
        (save_trace changed_files snippets relationships embeddings enc)[i]? = some op1 →
        (save_trace changed_files snippets relationships embeddings enc)[j]? = some op2 →
        isDeleteOp op1 → isInsertOp op2 → i < j) := by
  refine ⟨by simp [save], ?_, ?_⟩
  · intro fp hfp
    have hmem : ∀ op ∈ [StoreOp.deleteSqliteSnippets (E := E) fp,
        StoreOp.deleteGraphData (E := E) fp, StoreOp.deleteChromaSnippets (E := E) fp],
        op ∈ save_trace changed_files snippets relationships embeddings enc := by
      intro op hop
      unfold save_trace
      refine List.mem_append_left _ (List.mem_append_left _ (List.mem_append_left _ ?_))
      exact List.mem_flatMap.mpr ⟨fp, hfp, hop⟩
    exact ⟨hmem _ (by simp), hmem _ (by simp), hmem _ (by simp)⟩
  · intro i j op1 op2 hi hj hdel hins
    have htr : save_trace changed_files snippets relationships embeddings enc =
        save_deletes (E := E) changed_files
          ++ (save_snippet_inserts changed_files snippets embeddings
              ++ [StoreOp.insertRelationships relationships] ++ save_hash_ops (E := E) enc) := by
      unfold save_trace
      simp [List.append_assoc]
    rw [htr] at hi hj
    set D := save_deletes (E := E) changed_files with hD
    set R := save_snippet_inserts changed_files snippets embeddings
      ++ [StoreOp.insertRelationships relationships] ++ save_hash_ops (E := E) enc with hR
    have hiD : i < D.length := by
      by_contra hge
      push_neg at hge
      rw [List.getElem?_append_right hge] at hi
      rcases List.getElem?_eq_some_iff.mp hi with ⟨hlt, hval⟩
      exact mem_save_rest _ _ _ _ _ _ (hR ▸ hval ▸ List.getElem_mem hlt) hdel
    have hjD : D.length ≤ j := by
      by_contra hlt
      push_neg at hlt
      rw [List.getElem?_append_left hlt] at hj
      rcases List.getElem?_eq_some_iff.mp hj with ⟨hlt2, hval⟩
      exact (mem_save_deletes _ _ (hD ▸ hval ▸ List.getElem_mem hlt2)).2 hins
    exact lt_of_lt_of_le hiD hjD

/-- Concrete witness for the save delete-before-insert theorem. -/
theorem save_deletes_before_inserts_witness :
    (save (E := Unit) true true true ["f.py"]
        [{ id := "s1", name := "foo", type := SnippetType.FUNCTION,
           content := "def foo(): pass", file_path := some "f.py" }]
        [] none [("f.py", "h1")] =
      .ok (save_trace ["f.py"]
        [{ id := "s1", name := "foo", type := SnippetType.FUNCTION,
           content := "def foo(): pass", file_path := some "f.py" }]
        [] none [("f.py", "h1")])) ∧
    (∀ fp ∈ ["f.py"],
        StoreOp.deleteSqliteSnippets (E := Unit) fp ∈
          save_trace ["f.py"]
            [{ id := "s1", name := "foo", type := SnippetType.FUNCTION,
               content := "def foo(): pass", file_path := some "f.py" }]
            [] none [("f.py", "h1")] ∧
        StoreOp.deleteGraphData (E := Unit) fp ∈
          save_trace ["f.py"]
            [{ id := "s1", name := "foo", type := SnippetType.FUNCTION,
               content := "def foo(): pass", file_path := some "f.py" }]
            [] none [("f.py", "h1")] ∧
        StoreOp.deleteChromaSnippets (E := Unit) fp ∈
          save_trace ["f.py"]
            [{ id := "s1", name := "foo", type := SnippetType.FUNCTION,
               content := "def foo(): pass", file_path := some "f.py" }]
            [] none [("f.py", "h1")]) ∧
    (∀ (i j : Nat) (op1 op2 : StoreOp Unit),
        (save_trace ["f.py"]
          [{ id := "s1", name := "foo", type := SnippetType.FUNCTION,
             content := "def foo(): pass", file_path := some "f.py" }]
          [] none [("f.py", "h1")])[i]? = some op1 →
        (save_trace ["f.py"]
          [{ id := "s1", name := "foo", type := SnippetType.FUNCTION,
             content := "def foo(): pass", file_path := some "f.py" }]
          [] none [("f.py", "h1")])[j]? = some op2 →
        isDeleteOp op1 → isInsertOp op2 → i < j) :=
  save_deletes_before_inserts ["f.py"]
    [{ id := "s1", name := "foo", type := SnippetType.FUNCTION,
       content := "def foo(): pass", file_path := some "f.py" }]
    [] none [("f.py", "h1")]

/-- Claim C9 (counterexample): with no storage handles present, `cleanup`
does not raise — `if not self.sqlite: return` exits silently with no
deletions issued — so "both operations raise an error" fails for cleanup. -/
theorem cleanup_before_setup_silent_refuted :
    cleanup none none none [] = ([], none) ∧
    (∀ e : String, (cleanup none none none []).2 ≠ some e) := by
  constructor
  · rfl
  · intro e
    simp [cleanup]

/-- Claim C9 (amended): calling save before storage is set up raises
`RuntimeError("Storage not initialized.")` and performs no writes, while
calling cleanup before storage is set up returns silently without raising
and performs no writes. -/
theorem storage_guard_before_setup {E : Type}
    (sqliteReady graphReady chromaReady : Bool)
    (changed_files : List String) (snippets : List CodeSnippet)
    (relationships : List Relationship) (embeddings : Option (List (Option E)))
    (enc : List (String × String)) (current_snippets : List CodeSnippet)
    (hready : ¬ (sqliteReady = true ∧ graphReady = true ∧ chromaReady = true)) :
    save sqliteReady graphReady chromaReady changed_files snippets relationships
      embeddings enc = .error "Storage not initialized." ∧
    (∀ graphPaths chromaPaths : Option (List String),
        cleanup none graphPaths chromaPaths current_snippets = ([], none)) := by
  constructor
  · simp [save, hready]
  · intro graphPaths chromaPaths
    rfl

/-- Concrete witness for the storage-guard theorem. -/
theorem storage_guard_before_setup_witness :
    save (E := Unit) false false false [] [] [] none [] =
      .error "Storage not initialized." ∧
    (∀ graphPaths chromaPaths : Option (List String),
        cleanup none graphPaths chromaPaths [] = ([], none)) :=
  storage_guard_before_setup false false false [] [] [] none [] [] (by simp)

/-! ## Lemmas on file-node synthesis -/

theorem mem_create_file_snippets_step {sha256 : String → String}
    {readFile : String → Except String String} {changed_files : Option (List String)}
    (acc : List CodeSnippet) (g : String × List CodeSnippet) (f : CodeSnippet)
    (h : f ∈ create_file_snippets_step sha256 readFile changed_files acc g) :
    f ∈ acc ∨ ∃ content, readFile g.1 = .ok content ∧ f = mkFileSnippet sha256 g.1 content g.2 := by
  unfold create_file_snippets_step at h
  simp only [] at h
  split at h
  · exact Or.inl h
  · revert h
    split
    · intro h; exact Or.inl h
    · intro h
      rcases List.mem_append.mp h with h1 | h1
      · exact Or.inl h1
      · rw [List.mem_singleton] at h1
        exact Or.inr ⟨_, (by assumption), h1⟩

theorem mem_create_file_snippets_fold {sha256 : String → String}
    {readFile : String → Except String String} {changed_files : Option (List String)}
    (gs : List (String × List CodeSnippet)) (acc : List CodeSnippet) (f : CodeSnippet)
    (h : f ∈ gs.foldl (create_file_snippets_step sha256 readFile changed_files) acc) :
    f ∈ acc ∨ ∃ fp elems content, (fp, elems) ∈ gs ∧ readFile fp = .ok content ∧
      f = mkFileSnippet sha256 fp content elems := by
  induction gs generalizing acc with
  | nil => exact Or.inl h
  | cons g gs ih =>
      rcases ih _ h with h1 | ⟨fp, elems, content, hg, hr, hf⟩
      · rcases mem_create_file_snippets_step _ _ _ h1 with h2 | ⟨content, hr, hf⟩
        · exact Or.inl h2
        · exact Or.inr ⟨g.1, g.2, content, List.mem_cons_self _ _, hr, hf⟩
      · exact Or.inr ⟨fp, elems, content, List.mem_cons_of_mem _ hg, hr, hf⟩

/-- Claim C10: every synthesized file-level snippet has id
`sha256("file:" ++ path)`, a function of the file path alone; in particular
two runs that synthesize a node for the same path — whatever the file
contents, snippet lists, or changed set — produce the same file-node id. -/
theorem file_node_id_depends_only_on_path (sha256 : String → String)
    (readFile : String → Except String String)
    (snippets : List CodeSnippet) (changed_files : Option (List String))
    (f : CodeSnippet)
    (hf : f ∈ create_file_snippets sha256 readFile snippets changed_files) :
    (∃ fp, f.file_path = some fp ∧ f.id = sha256 ("file:" ++ fp) ∧
      f.type = SnippetType.FILE) ∧
    (∀ (readFile2 : String → Except String String) (snippets2 : List CodeSnippet)
        (changed_files2 : Option (List String)) (g : CodeSnippet),
        g ∈ create_file_snippets sha256 readFile2 snippets2 changed_files2 →
        g.file_path = f.file_path → g.id = f.id) := by
  unfold create_file_snippets at hf
  rcases mem_create_file_snippets_fold _ _ _ hf with h1 | ⟨fp, elems, content, _, _, hfeq⟩
  · cases h1
  constructor
  · exact ⟨fp, by rw [hfeq]; exact rfl, by rw [hfeq]; exact rfl, by rw [hfeq]; exact rfl⟩
  · intro readFile2 snippets2 changed_files2 g hg hfp
    unfold create_file_snippets at hg
    rcases mem_create_file_snippets_fold _ _ _ hg with h1 | ⟨fp2, elems2, content2, _, _, hgeq⟩
    · cases h1
    have hfp2 : fp2 = fp := by
      have h1 : g.file_path = some fp2 := by rw [hgeq]; exact rfl
      have h2 : f.file_path = some fp := by rw [hfeq]; exact rfl
      rw [h1, h2] at hfp
      exact Option.some_injective _ hfp
    rw [hgeq, hfeq, hfp2]
    exact rfl

/-- Concrete witness for the file-node id theorem: the same path with two
different file contents yields the same file-node id. -/
theorem file_node_id_depends_only_on_path_witness :
    ((∃ fp, (mkFileSnippet (fun s => s) "a.py" "x = 1\n"
        [{ id := "s1", name := "foo", type := SnippetType.FUNCTION,
           content := "def foo(): pass", file_path := some "a.py" }]).file_path = some fp ∧
      (mkFileSnippet (fun s => s) "a.py" "x = 1\n"
        [{ id := "s1", name := "foo", type := SnippetType.FUNCTION,
           content := "def foo(): pass", file_path := some "a.py" }]).id =
        (fun s => s) ("file:" ++ fp) ∧
      (mkFileSnippet (fun s => s) "a.py" "x = 1\n"
        [{ id := "s1", name := "foo", type := SnippetType.FUNCTION,
           content := "def foo(): pass", file_path := some "a.py" }]).type =
        SnippetType.FILE) ∧
    (∀ (readFile2 : String → Except String String) (snippets2 : List CodeSnippet)
        (changed_files2 : Option (List String)) (g : CodeSnippet),
        g ∈ create_file_snippets (fun s => s) readFile2 snippets2 changed_files2 →
        g.file_path = (mkFileSnippet (fun s => s) "a.py" "x = 1\n"
          [{ id := "s1", name := "foo", type := SnippetType.FUNCTION,
             content := "def foo(): pass", file_path := some "a.py" }]).file_path →
        g.id = (mkFileSnippet (fun s => s) "a.py" "x = 1\n"
          [{ id := "s1", name := "foo", type := SnippetType.FUNCTION,
             content := "def foo(): pass", file_path := some "a.py" }]).id)) :=
  file_node_id_depends_only_on_path (fun s => s) (fun _ => .ok "x = 1\n")
    [{ id := "s1", name := "foo", type := SnippetType.FUNCTION,
       content := "def foo(): pass", file_path := some "a.py" }] none
    (mkFileSnippet (fun s => s) "a.py" "x = 1\n"
      [{ id := "s1", name := "foo", type := SnippetType.FUNCTION,
         content := "def foo(): pass", file_path := some "a.py" }])
    (by decide)

/-! ## Lemmas on orphan linking -/

theorem linkOne_eq (F : Option String → Option String) (P : String → Bool)
    (lk : String → Option CodeSnippet) (s : CodeSnippet) :
    linkOne F P lk s =
      (let s1 := if s.type ≠ SnippetType.FILE ∧ (F s.file_path).isSome then
          (if ¬ truthy s.parent_id ∨ (∀ p, s.parent_id = some p → ¬ P p) then
            { s with parent_id := F s.file_path } else s) else s
       match s1.parent_id with
       | some p =>
           if p ≠ "" then
             (match lk p with
              | some parent =>
                  { s1 with metadata :=
                      dictSet s1.metadata "parent_signature" (signatureOrName parent) }
              | none => s1)
           else s1
       | none => s1) := rfl

theorem linkOne_id (F : Option String → Option String) (P : String → Bool)
    (lk : String → Option CodeSnippet) (s : CodeSnippet) :
    (linkOne F P lk s).id = s.id := by
  rw [linkOne_eq]
  simp only []
  repeat' split <;> try rfl

theorem linkOne_type (F : Option String → Option String) (P : String → Bool)
    (lk : String → Option CodeSnippet) (s : CodeSnippet) :
    (linkOne F P lk s).type = s.type := by
  rw [linkOne_eq]
  simp only []
  repeat' split <;> try rfl

theorem linkOne_file_path (F : Option String → Option String) (P : String → Bool)
    (lk : String → Option CodeSnippet) (s : CodeSnippet) :
    (linkOne F P lk s).file_path = s.file_path := by
  rw [linkOne_eq]
  simp only []
  repeat' split <;> try rfl

theorem linkOne_parent_orphan (F : Option String → Option String) (P : String → Bool)
    (lk : String → Option CodeSnippet) (s : CodeSnippet)
    (h1 : s.type ≠ SnippetType.FILE) (h2 : (F s.file_path).isSome)
    (h3 : ¬ truthy s.parent_id ∨ (∀ p, s.parent_id = some p → ¬ P p)) :
    (linkOne F P lk s).parent_id = F s.file_path := by
  rw [linkOne_eq]
  simp only []
  rw [if_pos ⟨h1, h2⟩, if_pos h3]
  repeat' split <;> try rfl

theorem linkOne_parent_keep (F : Option String → Option String) (P : String → Bool)
    (lk : String → Option CodeSnippet) (s : CodeSnippet)
    (h3 : ¬ (¬ truthy s.parent_id ∨ (∀ p, s.parent_id = some p → ¬ P p))) :
    (linkOne F P lk s).parent_id = s.parent_id := by
  rw [linkOne_eq]
  simp only []
  by_cases h1 : s.type ≠ SnippetType.FILE ∧ (F s.file_path).isSome
  · rw [if_pos h1, if_neg h3]
    repeat' split <;> try rfl
  · rw [if_neg h1]
    repeat' split <;> try rfl

theorem linkOne_file_fixed (F : Option String → Option String) (P : String → Bool)
    (lk : String → Option CodeSnippet) (s : CodeSnippet)
    (h1 : s.type = SnippetType.FILE) (h2 : s.parent_id = none) :
    linkOne F P lk s = s := by
  rw [linkOne_eq]
  simp only []
  rw [if_neg (by simp [h1])]
  rw [h2]

theorem filter_id_singleton (l : List CodeSnippet) (s : CodeSnippet)
    (hn : (l.map (fun t => t.id)).Nodup) (hs : s ∈ l) :
    l.filter (fun t => t.id = s.id) = [s] := by
  induction l with
  | nil => cases hs
  | cons h t ih =>
      rw [List.map_cons, List.nodup_cons] at hn
      rcases List.mem_cons.mp hs with rfl | hst
      · have hnone : t.filter (fun x => x.id = s.id) = [] := by
          rw [List.filter_eq_nil_iff]
          intro x hx
          simp only [decide_eq_true_eq]
          intro hxe
          exact hn.1 (hxe ▸ List.mem_map_of_mem (fun t => t.id) hx)
        simp [List.filter_cons, hnone]
      · have hne : h.id ≠ s.id := by
          intro he
          exact hn.1 (he ▸ List.mem_map_of_mem (fun t => t.id) hst)
        rw [List.filter_cons_of_neg (by simp [hne])]
        exact ih hn.2 hst

theorem lastWithId_eq_of_nodup (l : List CodeSnippet) (s : CodeSnippet)
    (hn : (l.map (fun t => t.id)).Nodup) (hs : s ∈ l) :
    lastWithId l s.id = some s := by
  unfold lastWithId
  rw [filter_id_singleton l s hn hs]
  rfl

theorem lastWithId_mem (l : List CodeSnippet) (c : String) (s : CodeSnippet)
    (h : lastWithId l c = some s) : s ∈ l ∧ s.id = c := by
  unfold lastWithId at h
  have hmem := List.mem_of_mem_getLast? h
  rw [List.mem_filter] at hmem
  exact ⟨hmem.1, by simpa using hmem.2⟩

theorem link_orphan_ids (snippets : List CodeSnippet) :
    (link_orphan_snippets snippets).map (fun t => t.id) =
      snippets.map (fun t => t.id) := by
  unfold link_orphan_snippets
  rw [List.map_map]
  exact List.map_congr_left (fun s _ => linkOne_id _ _ _ s)

theorem lastWithId_link (snippets : List CodeSnippet) (c : String) :
    lastWithId (link_orphan_snippets snippets) c =
      (lastWithId snippets c).map
        (linkOne (fileIdMap snippets)
          (fun p => (lastWithId snippets p).isSome) (lastWithId snippets)) := by
  unfold lastWithId link_orphan_snippets
  rw [List.filter_map]
  have hcongr : List.filter
      ((fun t : CodeSnippet => decide (t.id = c)) ∘
        linkOne (fileIdMap snippets)
          (fun p => (lastWithId snippets p).isSome) (lastWithId snippets)) snippets =
      List.filter (fun t : CodeSnippet => decide (t.id = c)) snippets :=
    List.filter_congr (fun x _ => by simp [Function.comp, linkOne_id])
  rw [hcongr, List.getLast?_map]
  rfl

theorem fileIdMap_isSome (snippets : List CodeSnippet) (fp : Option String)
    (h : ∃ f ∈ snippets, f.type = SnippetType.FILE ∧ f.file_path = fp) :
    ∃ f0, (snippets.filter
        (fun s => s.type = SnippetType.FILE ∧ s.file_path = fp)).getLast? = some f0 ∧
      f0 ∈ snippets ∧ f0.type = SnippetType.FILE ∧ f0.file_path = fp ∧
      fileIdMap snippets fp = some f0.id := by
  rcases h with ⟨f, hf, hft, hffp⟩
  have hne : snippets.filter (fun s => s.type = SnippetType.FILE ∧ s.file_path = fp) ≠ [] := by
    intro hnil
    have : f ∈ snippets.filter (fun s => s.type = SnippetType.FILE ∧ s.file_path = fp) := by
      rw [List.mem_filter]
      exact ⟨hf, by simp [hft, hffp]⟩
    rw [hnil] at this
    cases this
  have hsome : (snippets.filter
      (fun s => s.type = SnippetType.FILE ∧ s.file_path = fp)).getLast?.isSome :=
    List.getLast?_isSome.mpr hne
  rcases Option.isSome_iff_exists.mp hsome with ⟨f0, hf0⟩
  have hf0mem := List.mem_of_mem_getLast? hf0
  rw [List.mem_filter] at hf0mem
  refine ⟨f0, hf0, hf0mem.1, ?_, ?_, ?_⟩
  · have := hf0mem.2
    simp only [decide_eq_true_eq] at this
    exact this.1
  · have := hf0mem.2
    simp only [decide_eq_true_eq] at this
    exact this.2
  · unfold fileIdMap
    rw [hf0]
    rfl

theorem ancIter_succ (l : List CodeSnippet) (n : Nat) (x t : CodeSnippet)
    (h : parentLookup l x = some t) : ancIter l (n + 1) x = ancIter l n t := by
  show (match parentLookup l x with
        | some u => ancIter l n u
        | none => none) = ancIter l n t
  rw [h]

/-- Claim C7: after file-node synthesis and orphan linking, every non-file
snippet whose declared parent is falsy or absent from the snippet set is
re-parented to the file node of its file, and every non-file snippet of the
linked set reaches a FILE snippet by iterating the (single-valued, hence
unique) parent chain.  Hypotheses: snippet ids are distinct, every non-file
snippet's path carries a file node, file nodes carry no parent, and declared
parent links decrease a rank (structural containment is well-founded). -/
theorem orphan_linking_ancestors_reach_file (snippets : List CodeSnippet)
    (rank : String → Nat)
    (hids : (snippets.map (fun t => t.id)).Nodup)
    (hfile : ∀ s ∈ snippets, s.type ≠ SnippetType.FILE →
        ∃ f ∈ snippets, f.type = SnippetType.FILE ∧ f.file_path = s.file_path)
    (hfparent : ∀ s ∈ snippets, s.type = SnippetType.FILE → s.parent_id = none)
    (hrank : ∀ s ∈ snippets, ∀ t ∈ snippets, s.parent_id = some t.id →
        rank t.id < rank s.id) :
    (∀ s ∈ snippets, s.type ≠ SnippetType.FILE →
        (¬ truthy s.parent_id ∨
          (∀ p, s.parent_id = some p → ¬ (lastWithId snippets p).isSome)) →
        (linkOne (fileIdMap snippets) (fun p => (lastWithId snippets p).isSome)
            (lastWithId snippets) s).parent_id = fileIdMap snippets s.file_path) ∧
    (∀ s2 ∈ link_orphan_snippets snippets, s2.type ≠ SnippetType.FILE →
        ∃ n f, ancIter (link_orphan_snippets snippets) n s2 = some f ∧
          f.type = SnippetType.FILE) := by
  have hfid_some : ∀ s ∈ snippets, s.type ≠ SnippetType.FILE →
      (fileIdMap snippets s.file_path).isSome := by
    intro s hs hnf
    rcases fileIdMap_isSome snippets s.file_path (hfile s hs hnf) with
      ⟨f0, _, _, _, _, hfid⟩
    rw [hfid]
    rfl
  constructor
  · intro s hs hnf hcond
    exact linkOne_parent_orphan _ _ _ s hnf (hfid_some s hs hnf) hcond
  · have hmain : ∀ k, ∀ s ∈ snippets, rank s.id < k → s.type ≠ SnippetType.FILE →
        ∃ n f, ancIter (link_orphan_snippets snippets) n
            (linkOne (fileIdMap snippets)
              (fun p => (lastWithId snippets p).isSome) (lastWithId snippets) s) = some f ∧
          f.type = SnippetType.FILE := by
      intro k
      induction k with
      | zero => intro s _ hlt; omega
      | succ k ih =>
          intro s hs hlt hnf
          by_cases hcond : ¬ truthy s.parent_id ∨
              (∀ p, s.parent_id = some p → ¬ (lastWithId snippets p).isSome)
          · rcases fileIdMap_isSome snippets s.file_path (hfile s hs hnf) with
              ⟨f0, _, hf0mem, hf0t, _, hfid⟩
            have hpar := linkOne_parent_orphan (fileIdMap snippets)
              (fun p => (lastWithId snippets p).isSome) (lastWithId snippets) s hnf
              (hfid_some s hs hnf) hcond
            have hf0last : lastWithId snippets f0.id = some f0 :=
              lastWithId_eq_of_nodup _ _ hids hf0mem
            have hgf0 : linkOne (fileIdMap snippets)
                (fun p => (lastWithId snippets p).isSome) (lastWithId snippets) f0 = f0 :=
              linkOne_file_fixed _ _ _ f0 hf0t (hfparent f0 hf0mem hf0t)
            have hpid : (linkOne (fileIdMap snippets)
                (fun p => (lastWithId snippets p).isSome) (lastWithId snippets) s).parent_id =
                some f0.id := by
              rw [hpar, hfid]
            have hstep : parentLookup (link_orphan_snippets snippets)
                (linkOne (fileIdMap snippets)
                  (fun p => (lastWithId snippets p).isSome) (lastWithId snippets) s) =
                some f0 := by
              unfold parentLookup
              rw [hpid]
              show lastWithId (link_orphan_snippets snippets) f0.id = some f0
              rw [lastWithId_link, hf0last]
              simp [hgf0]
            refine ⟨1, f0, ?_, hf0t⟩
            rw [ancIter_succ _ 0 _ f0 hstep]
            rfl
          · push_neg at hcond
            rcases hcond with ⟨htr, p, hp, hPp⟩
            rcases Option.isSome_iff_exists.mp (by simpa using hPp) with ⟨t, ht⟩
            have htmem := lastWithId_mem snippets p t ht
            have hpar : (linkOne (fileIdMap snippets)
                (fun p => (lastWithId snippets p).isSome) (lastWithId snippets) s).parent_id =
                s.parent_id := by
              apply linkOne_parent_keep
              push_neg
              refine ⟨by simpa using htr, p, hp, by simpa using hPp⟩
            have hpid : (linkOne (fileIdMap snippets)
                (fun p => (lastWithId snippets p).isSome) (lastWithId snippets) s).parent_id =
                some p := by
              rw [hpar, hp]
            have hstep : parentLookup (link_orphan_snippets snippets)
                (linkOne (fileIdMap snippets)
                  (fun p => (lastWithId snippets p).isSome) (lastWithId snippets) s) =
                some (linkOne (fileIdMap snippets)
                  (fun p => (lastWithId snippets p).isSome) (lastWithId snippets) t) := by
              unfold parentLookup
              rw [hpid]
              show lastWithId (link_orphan_snippets snippets) p =
                some (linkOne (fileIdMap snippets)
                  (fun p => (lastWithId snippets p).isSome) (lastWithId snippets) t)
              rw [lastWithId_link, ht]
              rfl
            have hrt : rank t.id < k := by
              have := hrank s hs t htmem.1 (by rw [hp, htmem.2])
              omega
            by_cases hft : t.type = SnippetType.FILE
            · refine ⟨1, t, ?_, hft⟩
              rw [ancIter_succ _ 0 _ _ hstep]
              rw [linkOne_file_fixed _ _ _ t hft (hfparent t htmem.1 hft)]
              rfl
            · rcases ih t htmem.1 hrt hft with ⟨n, f, hanc, htype⟩
              refine ⟨n + 1, f, ?_, htype⟩
              rw [ancIter_succ _ n _ _ hstep]
              exact hanc
    intro s2 hs2 hnf2
    have hL : link_orphan_snippets snippets =
        snippets.map (linkOne (fileIdMap snippets)
          (fun p => (lastWithId snippets p).isSome) (lastWithId snippets)) := rfl
    rw [hL] at hs2
    rcases List.mem_map.mp hs2 with ⟨s, hs, rfl⟩
    have hnf : s.type ≠ SnippetType.FILE := by
      rw [linkOne_type] at hnf2
      exact hnf2
    exact hmain (rank s.id + 1) s hs (Nat.lt_succ_self _) hnf

/-- Concrete witness for the orphan-linking theorem: a method with a stale
parent id and a class with no parent are both linked into a chain ending at
the file node. -/
theorem orphan_linking_ancestors_reach_file_witness :
    (let snips : List CodeSnippet :=
      [{ id := "m", name := "baz", type := SnippetType.METHOD,
         content := "def baz(): pass", parent_id := some "gone",
         file_path := some "b.py" },
       { id := "c", name := "Bar", type := SnippetType.CLASS,
         content := "class Bar: ...", file_path := some "b.py" },
       { id := "f", name := "b.py", type := SnippetType.FILE,
         content := "class Bar: ...", file_path := some "b.py" }]
     (∀ s ∈ snips, s.type ≠ SnippetType.FILE →
        (¬ truthy s.parent_id ∨
          (∀ p, s.parent_id = some p → ¬ (lastWithId snips p).isSome)) →
        (linkOne (fileIdMap snips) (fun p => (lastWithId snips p).isSome)
            (lastWithId snips) s).parent_id = fileIdMap snips s.file_path) ∧
    (∀ s2 ∈ link_orphan_snippets snips, s2.type ≠ SnippetType.FILE →
        ∃ n f, ancIter (link_orphan_snippets snips) n s2 = some f ∧
          f.type = SnippetType.FILE)) :=
  orphan_linking_ancestors_reach_file
    [{ id := "m", name := "baz", type := SnippetType.METHOD,
       content := "def baz(): pass", parent_id := some "gone",
       file_path := some "b.py" },
     { id := "c", name := "Bar", type := SnippetType.CLASS,
       content := "class Bar: ...", file_path := some "b.py" },
     { id := "f", name := "b.py", type := SnippetType.FILE,
       content := "class Bar: ...", file_path := some "b.py" }]
    (fun i => if i = "m" then 0 else 1)
    (by decide)
    (by decide)
    (by decide)
    (by decide)

/-! ## Lemmas on the parser cache -/

theorem get_cached_snippets_some (hash : String → String) (st : ParserState)
    (fp code : String) (l : List CodeSnippet)
    (h : (get_cached_snippets hash st fp code).1 = some l) :
    (get_cached_snippets hash st fp code).2 = st ∧
    dictGet? st.content_hash_cache fp = some (hash code) ∧
    dictGet? st.snippet_cache fp = some l := by
  unfold get_cached_snippets at h ⊢
  by_cases hh : dictGet? st.content_hash_cache fp = some (hash code)
  · rw [if_pos hh] at h ⊢
    exact ⟨rfl, hh, h⟩
  · rw [if_neg hh] at h
    simp at h

theorem get_cached_snippets_none (hash : String → String) (st : ParserState)
    (fp code : String)
    (_h : (get_cached_snippets hash st fp code).1 = none) :
    dictGet? (get_cached_snippets hash st fp code).2.content_hash_cache fp =
      some (hash code) := by
  unfold get_cached_snippets
  by_cases hh : dictGet? st.content_hash_cache fp = some (hash code)
  · rw [if_pos hh]
    exact hh
  · rw [if_neg hh]
    exact dictGet?_dictSet_self _ _ _

/-- Claim C6: snippet ids are a deterministic function of
`(filePath, position, content)`.  First conjunct: the id of every parsed
snippet is the sha256 of the base string built from exactly the file path,
start byte, chunk index and id-determining content.  Second conjunct:
parsing the same code at the same path twice (through the parser's
content-hash and snippet caches) returns the same snippet list, so every
produced id is identical.  Third conjunct: the synthesized file-level node's
id is the same for any two file contents and element sets at one path. -/
theorem snippet_ids_reproducible (hash sha256 : String → String)
    (extract : String → Option String → List CodeSnippet)
    (st : ParserState) (code : String) (fp : Option String) :
    (∀ (fp2 : Option String) (sb : Nat) (ci : Option Nat) (c : String),
        mk_snippet_id sha256 fp2 sb ci c = sha256 (snippet_id_base fp2 sb ci c)) ∧
    ((parse_file hash extract ((parse_file hash extract st code fp).2) code fp).1 =
      (parse_file hash extract st code fp).1) ∧
    (∀ (path c1 c2 : String) (e1 e2 : List CodeSnippet),
        (mkFileSnippet sha256 path c1 e1).id = (mkFileSnippet sha256 path c2 e2).id) := by
  refine ⟨fun _ _ _ _ => rfl, ?_, fun _ _ _ _ _ => rfl⟩
  cases fp with
  | none => rfl
  | some f =>
      by_cases hf : f = ""
      · simp [parse_file, hf]
      · have hfne : f ≠ "" := hf
        simp only [parse_file]
        rw [if_pos hfne, if_pos hfne]
        have get_cached_hit : ∀ (st2 : ParserState) (l : List CodeSnippet),
            dictGet? st2.content_hash_cache f = some (hash code) →
            dictGet? st2.snippet_cache f = some l →
            (get_cached_snippets hash st2 f code).1 = some l := by
          intro st2 l hhash hsnip
          unfold get_cached_snippets
          rw [if_pos hhash]
          exact hsnip
        cases hc : (get_cached_snippets hash st f code).1 with
        | some cached =>
            rcases get_cached_snippets_some hash st f code cached hc with ⟨hst, hhash, hsnip⟩
            simp only [hc, hst]
        | none =>
            have hch := get_cached_snippets_none hash st f code hc
            have hsecond : (get_cached_snippets hash
                { (get_cached_snippets hash st f code).2 with
                  tree_cache_keys :=
                    if f ∈ (get_cached_snippets hash st f code).2.tree_cache_keys then
                      (get_cached_snippets hash st f code).2.tree_cache_keys
                    else (get_cached_snippets hash st f code).2.tree_cache_keys ++ [f]
                  code_cache := dictSet (get_cached_snippets hash st f code).2.code_cache f code
                  snippet_cache := dictSet (get_cached_snippets hash st f code).2.snippet_cache f
                    (extract code (some f)) } f code).1 = some (extract code (some f)) :=
              get_cached_hit _ _ hch (dictGet?_dictSet_self _ _ _)
            simp only [hc, hsecond]

/-! ## Lemmas on the deduplicated snippet dict and the dependency graph -/

theorem mem_dictSet_entry {α : Type} (m : List (String × α)) (k : String) (v : α)
    (q : String × α) (h : q ∈ dictSet m k v) : q ∈ m ∨ q = (k, v) := by
  induction m with
  | nil =>
      unfold dictSet at h
      rw [List.mem_singleton] at h
      exact Or.inr h
  | cons p m ih =>
      by_cases hp : p.1 = k
      · rw [show dictSet (p :: m) k v =
          (if p.1 = k then (k, v) :: m else p :: dictSet m k v) from rfl, if_pos hp] at h
        rcases List.mem_cons.mp h with h1 | h1
        · exact Or.inr h1
        · exact Or.inl (List.mem_cons_of_mem _ h1)
      · rw [show dictSet (p :: m) k v =
          (if p.1 = k then (k, v) :: m else p :: dictSet m k v) from rfl, if_neg hp] at h
        rcases List.mem_cons.mp h with h1 | h1
        · exact Or.inl (h1 ▸ List.mem_cons_self _ _)
        · rcases ih h1 with h2 | h2
          · exact Or.inl (List.mem_cons_of_mem _ h2)
          · exact Or.inr h2

theorem keys_dictSet_eq {α : Type} (m : List (String × α)) (k : String) (v : α) :
    (dictSet m k v).map Prod.fst =
      (if k ∈ m.map Prod.fst then m.map Prod.fst else m.map Prod.fst ++ [k]) := by
  induction m with
  | nil => simp [dictSet]
  | cons p m ih =>
      by_cases hp : p.1 = k
      · rw [show dictSet (p :: m) k v =
          (if p.1 = k then (k, v) :: m else p :: dictSet m k v) from rfl, if_pos hp]
        simp [hp]
      · rw [show dictSet (p :: m) k v =
          (if p.1 = k then (k, v) :: m else p :: dictSet m k v) from rfl, if_neg hp]
        by_cases hk : k ∈ m.map Prod.fst
        · simp only [List.map_cons, ih, if_pos hk]
          rw [if_pos (List.mem_cons_of_mem _ hk)]
        · simp only [List.map_cons, ih, if_neg hk]
          rw [if_neg (by
            intro hmem
            rcases List.mem_cons.mp hmem with h1 | h1
            · exact hp h1.symm
            · exact hk h1)]
          simp

theorem keys_dictSet_nodup {α : Type} (m : List (String × α)) (k : String) (v : α)
    (h : (m.map Prod.fst).Nodup) : ((dictSet m k v).map Prod.fst).Nodup := by
  rw [keys_dictSet_eq]
  by_cases hk : k ∈ m.map Prod.fst
  · rw [if_pos hk]
    exact h
  · rw [if_neg hk]
    rw [List.nodup_append]
    exact ⟨h, List.nodup_singleton _, by
      intro a ha hb
      rw [List.mem_singleton] at hb
      exact hk (hb ▸ ha)⟩

theorem snippet_dict_entries (l : List CodeSnippet) (start : List (String × CodeSnippet))
    (hstart : ∀ q ∈ start, (q : String × CodeSnippet).2.id = q.1) :
    ∀ q ∈ l.foldl (fun m s => dictSet m s.id s) start, q.2.id = q.1 := by
  induction l generalizing start with
  | nil => exact hstart
  | cons s l ih =>
      intro q hq
      refine ih (dictSet start s.id s) ?_ q hq
      intro q2 hq2
      rcases mem_dictSet_entry _ _ _ _ hq2 with h1 | h1
      · exact hstart q2 h1
      · rw [h1]

theorem snippet_dict_keys_nodup (l : List CodeSnippet) (start : List (String × CodeSnippet))
    (hstart : (start.map Prod.fst).Nodup) :
    ((l.foldl (fun m s => dictSet m s.id s) start).map Prod.fst).Nodup := by
  induction l generalizing start with
  | nil => exact hstart
  | cons s l ih => exact ih _ (keys_dictSet_nodup _ _ _ hstart)

theorem dedupe_by_id_ids_nodup (l : List CodeSnippet) :
    ((dedupe_by_id l).map (fun s => s.id)).Nodup := by
  unfold dedupe_by_id
  rw [List.map_map]
  have hcong : (l.foldl (fun m s => dictSet m s.id s) []).map ((fun s => s.id) ∘ Prod.snd) =
      (l.foldl (fun m s => dictSet m s.id s) []).map Prod.fst :=
    List.map_congr_left (fun q hq => snippet_dict_entries l [] (by intro q2 hq2; cases hq2) q hq)
  rw [hcong]
  exact snippet_dict_keys_nodup l [] List.nodup_nil

theorem buildSchedGraph_wf (snippets : List CodeSnippet) :
    GraphWF (buildSchedGraph snippets) := by
  have hnd : ((dedupe_by_id snippets).map (fun s => s.id)).Nodup :=
    dedupe_by_id_ids_nodup snippets
  refine ⟨hnd, ?_, ?_⟩
  · intro p
    unfold buildSchedGraph
    simp only []
    have hsub : ((dedupe_by_id snippets).filter
        (fun s => s.parent_id = some p ∧ p ≠ "" ∧ p ∈ (dedupe_by_id snippets).map
          (fun s => s.id) ∧ s.id ≠ p)).Sublist (dedupe_by_id snippets) :=
      List.filter_sublist _
    exact (hsub.map (fun s => s.id)).nodup hnd
  · intro c p
    unfold buildSchedGraph parentLink
    simp only []
    constructor
    · intro hc
      rcases List.mem_map.mp hc with ⟨s, hsf, rfl⟩
      rw [List.mem_filter] at hsf
      have hprops := hsf.2
      simp only [decide_eq_true_eq] at hprops
      have hsingle : (dedupe_by_id snippets).filter (fun t => t.id = s.id) = [s] :=
        filter_id_singleton _ _ hnd hsf.1
      refine ⟨?_, hprops.2.1, hprops.2.2.1, hprops.2.2.2, List.mem_map_of_mem _ hsf.1⟩
      rw [hsingle]
      show (some s).bind (fun t => t.parent_id) = some p
      simp [hprops.1]
    · rintro ⟨hpar, hpne, hpin, hcne, hcin⟩
      rcases List.mem_map.mp hcin with ⟨s, hsmem, rfl⟩
      have hsingle : (dedupe_by_id snippets).filter (fun t => t.id = s.id) = [s] :=
        filter_id_singleton _ _ hnd hsmem
      rw [hsingle] at hpar
      have hspar : s.parent_id = some p := by
        simpa using hpar
      refine List.mem_map_of_mem _ ?_
      rw [List.mem_filter]
      exact ⟨hsmem, by simp [hspar, hpne, hpin, hcne]⟩

/-! ## Lemmas on needs-marking and batch bookkeeping -/

theorem needsAdd_mem (needs : List String) (x y : String) :
    y ∈ needsAdd needs x ↔ y ∈ needs ∨ y = x := by
  unfold needsAdd
  by_cases hx : x ∈ needs
  · rw [if_pos hx]
    constructor
    · exact Or.inl
    · rintro (h | rfl)
      · exact h
      · exact hx
  · rw [if_neg hx]
    rw [List.mem_cons]
    tauto

theorem markOne_mem (G : SchedGraph) (needs : List String) (sid y : String) :
    y ∈ markOne G needs sid ↔ y ∈ needs ∨
      (y = sid ∧ (sid ∈ needs ∨ ∃ c ∈ G.children sid, c ∈ needs)) := by
  unfold markOne
  split
  · rw [needsAdd_mem]
    constructor
    · rintro (h | rfl)
      · exact Or.inl h
      · refine Or.inr ⟨rfl, ?_⟩
        rename_i hcond
        rcases hcond with h | h
        · exact Or.inl h
        · rw [List.any_eq_true] at h
          rcases h with ⟨c, hc, hcn⟩
          exact Or.inr ⟨c, hc, by simpa using hcn⟩
    · rintro (h | ⟨rfl, _⟩)
      · exact Or.inl h
      · exact Or.inr rfl
  · constructor
    · exact Or.inl
    · rintro (h | ⟨rfl, hcond⟩)
      · exact h
      · rename_i hneg
        exfalso
        apply hneg
        rcases hcond with h | ⟨c, hc, hcn⟩
        · exact Or.inl h
        · refine Or.inr ?_
          rw [List.any_eq_true]
          exact ⟨c, hc, by simpa using hcn⟩

theorem markOne_mono (G : SchedGraph) (needs : List String) (sid y : String)
    (h : y ∈ needs) : y ∈ markOne G needs sid :=
  (markOne_mem G needs sid y).mpr (Or.inl h)

theorem markBatch_mono (G : SchedGraph) (needs : List String) (b : List String) (y : String)
    (h : y ∈ needs) : y ∈ markBatch G needs b := by
  unfold markBatch
  induction b generalizing needs with
  | nil => exact h
  | cons x rest ih => exact ih _ (markOne_mono G needs x y h)

theorem markBatch_mem_or (G : SchedGraph) (needs : List String) (b : List String) (y : String)
    (h : y ∈ markBatch G needs b) : y ∈ needs ∨ y ∈ b := by
  unfold markBatch at h
  induction b generalizing needs with
  | nil => exact Or.inl h
  | cons x rest ih =>
      rcases ih _ h with h1 | h1
      · rcases (markOne_mem G needs x y).mp h1 with h2 | ⟨rfl, _⟩
        · exact Or.inl h2
        · exact Or.inr (List.mem_cons_self _ _)
      · exact Or.inr (List.mem_cons_of_mem _ h1)

theorem markBatch_parent_marked (G : SchedGraph) (needs : List String) (b : List String)
    (p c : String) (hp : p ∈ b) (hc : c ∈ G.children p) (hcn : c ∈ needs) :
    p ∈ markBatch G needs b := by
  suffices hgen : ∀ (b2 needs2 : List String), p ∈ b2 → c ∈ needs2 →
      p ∈ markBatch G needs2 b2 from hgen b needs hp hcn
  intro b2
  induction b2 with
  | nil => intro needs2 hp2 _; cases hp2
  | cons x rest ih =>
      intro needs2 hp2 hcn2
      rcases List.mem_cons.mp hp2 with rfl | hp3
      · exact markBatch_mono G _ rest p
          ((markOne_mem G needs2 p p).mpr (Or.inr ⟨rfl, Or.inr ⟨c, hc, hcn2⟩⟩))
      · exact ih _ hp3 (markOne_mono G needs2 x c hcn2)

theorem perm_cons_erase_batches (L : List (List String)) (b : List String) (h : b ∈ L) :
    L.Perm (b :: L.erase b) := by
  induction L with
  | nil => cases h
  | cons a ls ih =>
      by_cases hab : a = b
      · subst hab
        rw [List.erase_cons_head]
      · rw [List.erase_cons_tail (by simpa using hab)]
        have hbls : b ∈ ls := by
          rcases List.mem_cons.mp h with h1 | h1
          · exact absurd h1.symm hab
          · exact h1
        exact ((ih hbls).cons a).trans (List.Perm.swap b a (ls.erase b))

theorem flatten_erase_perm (L : List (List String)) (b : List String) (h : b ∈ L) :
    L.flatten.Perm (b ++ (L.erase b).flatten) := by
  have h3 := (perm_cons_erase_batches L b h).flatten
  simpa using h3

theorem length_filter_minus (l : List String) (hl : l.Nodup) (Q : String → Bool)
    (x : String) (hx : x ∈ l) (hQ : Q x = true) :
    (l.filter (fun i => Q i ∧ i ≠ x)).length + 1 = (l.filter Q).length := by
  induction l with
  | nil => cases hx
  | cons y rest ih =>
      rw [List.nodup_cons] at hl
      rcases List.mem_cons.mp hx with rfl | hx2
      · have hrest : rest.filter (fun i => Q i ∧ i ≠ x) = rest.filter Q := by
          apply List.filter_congr
          intro i hi
          have : i ≠ x := fun he => hl.1 (he ▸ hi)
          simp [this]
        rw [List.filter_cons, List.filter_cons]
        simp only [hQ]
        rw [hrest]
        simp
      · have hyx : y ≠ x := fun he => hl.1 (he ▸ hx2)
        rw [List.filter_cons, List.filter_cons]
        by_cases hQy : Q y = true
        · simp only [hQy, hyx]
          simp only [decide_eq_true_eq]
          rw [if_pos (by simp [hQy, hyx]), if_pos (by simp)]
          simp only [List.length_cons]
          have := ih hl.2 hx2
          omega
        · rw [if_neg (by simp [hQy]), if_neg (by simp [hQy])]
          exact ih hl.2 hx2

theorem schedIds_submit_perm (s : SchedState) (bs : Nat) :
    (schedIds { s with
        ready := s.ready.drop bs
        submitted := s.ready.take bs :: s.submitted }).Perm (schedIds s) := by
  show (((s.ready.drop bs ++ (s.ready.take bs ++ s.submitted.flatten)) ++
      s.executed.flatten) ++ s.processed).Perm
    (((s.ready ++ s.submitted.flatten) ++ s.executed.flatten) ++ s.processed)
  refine List.Perm.append_right s.processed ?_
  refine List.Perm.append_right s.executed.flatten ?_
  have h1 : s.ready.drop bs ++ (s.ready.take bs ++ s.submitted.flatten) =
      (s.ready.drop bs ++ s.ready.take bs) ++ s.submitted.flatten :=
    (List.append_assoc _ _ _).symm
  have h2 : ((s.ready.drop bs ++ s.ready.take bs) ++ s.submitted.flatten).Perm
      ((s.ready.take bs ++ s.ready.drop bs) ++ s.submitted.flatten) :=
    List.Perm.append_right _ List.perm_append_comm
  rw [h1]
  refine h2.trans ?_
  rw [List.take_append_drop]

theorem schedIds_exec_perm (s : SchedState) (b : List String) (ns : List String)
    (hb : b ∈ s.submitted) :
    (schedIds { s with
        submitted := s.submitted.erase b
        executed := b :: s.executed
        needs := ns }).Perm (schedIds s) := by
  show (((s.ready ++ (s.submitted.erase b).flatten) ++ (b ++ s.executed.flatten)) ++
      s.processed).Perm
    (((s.ready ++ s.submitted.flatten) ++ s.executed.flatten) ++ s.processed)
  refine List.Perm.append_right s.processed ?_
  have hcore : ((s.submitted.erase b).flatten ++ (b ++ s.executed.flatten)).Perm
      (s.submitted.flatten ++ s.executed.flatten) := by
    have h1 : (s.submitted.flatten ++ s.executed.flatten).Perm
        ((b ++ (s.submitted.erase b).flatten) ++ s.executed.flatten) :=
      List.Perm.append_right _ (flatten_erase_perm _ _ hb)
    have h2 : ((s.submitted.erase b).flatten ++ (b ++ s.executed.flatten)).Perm
        ((b ++ (s.submitted.erase b).flatten) ++ s.executed.flatten) := by
      rw [List.append_assoc]
      exact (List.perm_append_comm_assoc _ _ _).symm
    exact h2.trans h1.symm
  have h3 : (s.ready ++ (s.submitted.erase b).flatten) ++ (b ++ s.executed.flatten) =
      s.ready ++ ((s.submitted.erase b).flatten ++ (b ++ s.executed.flatten)) :=
    List.append_assoc _ _ _
  rw [h3]
  refine (List.Perm.append_left _ hcore).trans ?_
  rw [List.append_assoc]

theorem flatten_consume_perm (pre post : List (List String)) (sid : String)
    (rest : List String) :
    (pre ++ (sid :: rest) :: post).flatten.Perm
      (sid :: (pre ++ rest :: post).flatten) := by
  rw [List.flatten_append, List.flatten_append]
  show (pre.flatten ++ ((sid :: rest) ++ post.flatten)).Perm
    (sid :: (pre.flatten ++ (rest ++ post.flatten)))
  have h1 : pre.flatten ++ ((sid :: rest) ++ post.flatten) =
      pre.flatten ++ sid :: (rest ++ post.flatten) := rfl
  rw [h1]
  exact List.perm_middle

theorem nodup_append_disjoint {l1 l2 : List String} (h : (l1 ++ l2).Nodup)
    (x : String) (h1 : x ∈ l1) (h2 : x ∈ l2) : False :=
  (List.disjoint_of_nodup_append h) h1 h2

/-- Initial state satisfies the scheduler invariant. -/
theorem schedInv_init (G : SchedGraph) (hG : GraphWF G) (seed : List String) :
    SchedInv G (initState G seed) := by
  have hids : schedIds (initState G seed) =
      G.ids.filter (fun i => (G.children i).length = 0) := by
    unfold schedIds initState
    simp
  refine ⟨?_, ?_, ?_, ?_, ?_, ?_, ?_, ?_⟩
  · rw [hids]
    exact hG.idsNodup.filter _
  · intro x hx
    rw [hids] at hx
    exact List.mem_of_mem_filter hx
  · intro p hp c hc
    rw [hids] at hp
    have h0 : (G.children p).length = 0 := by
      have := List.of_mem_filter hp
      simpa using this
    rw [List.length_eq_zero] at h0
    rw [h0] at hc
    cases hc
  · intro p
    unfold initState
    simp only []
    have hfilter : (G.children p).filter (fun c => c ∉ ([] : List String)) =
        G.children p :=
      List.filter_eq_self.mpr (fun a _ => by simp)
    rw [hfilter]
    simp
  · intro p hp hnp hdone
    have h0 : G.children p = [] := by
      rw [List.eq_nil_iff_forall_not_mem]
      intro c hc
      have hcp := hdone c hc
      unfold initState at hcp
      simp at hcp
    refine Or.inl ?_
    show p ∈ G.ids.filter (fun i => (G.children i).length = 0)
    rw [List.mem_filter]
    exact ⟨hp, by simp [h0]⟩
  · intro b hb
    cases hb
  · intro p hp c hc hcn
    rcases hp with hp | hp
    · unfold initState at hp
      simp at hp
    · cases hp
  · intro p hp
    cases hp

/-- The submit step preserves the scheduler invariant (for positive batch
size). -/
theorem schedInv_submit (G : SchedGraph) (bs : Nat) (hbs : 0 < bs) (s : SchedState)
    (hInv : SchedInv G s) (hr : s.ready ≠ []) :
    SchedInv G { s with
      ready := s.ready.drop bs
      submitted := s.ready.take bs :: s.submitted } := by
  have hperm := schedIds_submit_perm s bs
  have hmem : ∀ x, x ∈ schedIds { s with
      ready := s.ready.drop bs
      submitted := s.ready.take bs :: s.submitted } ↔ x ∈ schedIds s :=
    fun x => hperm.mem_iff
  refine ⟨?_, ?_, ?_, hInv.indegEq, ?_, ?_, hInv.needsClosed, hInv.accProcessed⟩
  · exact hperm.symm.nodup hInv.nodupAll
  · intro x hx
    exact hInv.memIds x ((hmem x).mp hx)
  · intro p hp c hc
    exact hInv.childDone p ((hmem p).mp hp) c hc
  · intro p hp hnp hdone
    rcases hInv.zeroLoc p hp hnp hdone with h1 | h1 | h1
    · rw [← List.take_append_drop bs s.ready] at h1
      rcases List.mem_append.mp h1 with h2 | h2
      · refine Or.inr (Or.inl ?_)
        show p ∈ s.ready.take bs ++ s.submitted.flatten
        exact List.mem_append_left _ h2
      · exact Or.inl h2
    · refine Or.inr (Or.inl ?_)
      show p ∈ s.ready.take bs ++ s.submitted.flatten
      exact List.mem_append_right _ h1
    · exact Or.inr (Or.inr h1)
  · intro b hb
    rcases List.mem_cons.mp hb with rfl | hb2
    · intro htake
      rcases List.exists_cons_of_ne_nil hr with ⟨a, r2, hr2⟩
      rw [hr2] at htake
      rcases Nat.exists_eq_succ_of_ne_zero (Nat.pos_iff_ne_zero.mp hbs) with ⟨k, rfl⟩
      simp [List.take_succ_cons] at htake
    · exact hInv.subNonempty b hb2

theorem mem_schedIds_of_ready (s : SchedState) (x : String) (h : x ∈ s.ready) :
    x ∈ schedIds s :=
  List.mem_append_left _ (List.mem_append_left _ (List.mem_append_left _ h))

theorem mem_schedIds_of_sub (s : SchedState) (x : String) (h : x ∈ s.submitted.flatten) :
    x ∈ schedIds s :=
  List.mem_append_left _ (List.mem_append_left _ (List.mem_append_right _ h))

theorem mem_schedIds_of_exec (s : SchedState) (x : String) (h : x ∈ s.executed.flatten) :
    x ∈ schedIds s :=
  List.mem_append_left _ (List.mem_append_right _ h)

theorem mem_schedIds_of_proc (s : SchedState) (x : String) (h : x ∈ s.processed) :
    x ∈ schedIds s :=
  List.mem_append_right _ h

theorem schedIds_disj_sub_proc (s : SchedState) (h : (schedIds s).Nodup) (x : String)
    (h1 : x ∈ s.submitted.flatten) (h2 : x ∈ s.processed) : False :=
  nodup_append_disjoint h x
    (List.mem_append_left _ (List.mem_append_right _ h1)) h2

theorem schedIds_disj_exec_proc (s : SchedState) (h : (schedIds s).Nodup) (x : String)
    (h1 : x ∈ s.executed.flatten) (h2 : x ∈ s.processed) : False :=
  nodup_append_disjoint h x (List.mem_append_right _ h1) h2

/-- The execute step (running a batch's process_batch body) preserves the
scheduler invariant. -/
theorem schedInv_exec (G : SchedGraph) (s : SchedState) (b : List String)
    (hInv : SchedInv G s) (hb : b ∈ s.submitted) :
    SchedInv G { s with
      submitted := s.submitted.erase b
      executed := b :: s.executed
      needs := markBatch G s.needs b } := by
  have hperm := schedIds_exec_perm s b (markBatch G s.needs b) hb
  have hmem : ∀ x, x ∈ schedIds { s with
      submitted := s.submitted.erase b
      executed := b :: s.executed
      needs := markBatch G s.needs b } ↔ x ∈ schedIds s :=
    fun x => hperm.mem_iff
  have hbsub : ∀ x ∈ b, x ∈ s.submitted.flatten :=
    fun x hx => List.mem_flatten.mpr ⟨b, hb, hx⟩
  refine ⟨hperm.symm.nodup hInv.nodupAll, ?_, ?_, hInv.indegEq, ?_, ?_, ?_,
    hInv.accProcessed⟩
  · intro x hx
    exact hInv.memIds x ((hmem x).mp hx)
  · intro p hp c hc
    exact hInv.childDone p ((hmem p).mp hp) c hc
  · intro p hp hnp hdone
    rcases hInv.zeroLoc p hp hnp hdone with h1 | h1 | h1
    · exact Or.inl h1
    · have := (flatten_erase_perm s.submitted b hb).mem_iff.mp h1
      rcases List.mem_append.mp this with h2 | h2
      · refine Or.inr (Or.inr ?_)
        show p ∈ b ++ s.executed.flatten
        exact List.mem_append_left _ h2
      · exact Or.inr (Or.inl h2)
    · refine Or.inr (Or.inr ?_)
      show p ∈ b ++ s.executed.flatten
      exact List.mem_append_right _ h1
  · intro b2 hb2
    exact hInv.subNonempty b2 (List.mem_of_mem_erase hb2)
  · intro p hp c hc hcn
    have hcn2 : c ∈ s.needs := by
      rcases markBatch_mem_or G s.needs b c hcn with h1 | h1
      · exact h1
      · exfalso
        have hcp : c ∈ s.processed := by
          rcases hp with hp | hp
          · rcases List.mem_append.mp hp with h2 | h2
            · exact hInv.childDone p (mem_schedIds_of_sub s p (hbsub p h2)) c hc
            · exact hInv.childDone p (mem_schedIds_of_exec s p h2) c hc
          · exact hInv.childDone p (mem_schedIds_of_proc s p hp) c hc
        exact schedIds_disj_sub_proc s hInv.nodupAll c (hbsub c h1) hcp
    rcases hp with hp | hp
    · rcases List.mem_append.mp hp with h2 | h2
      · exact markBatch_parent_marked G s.needs b p c h2 hc hcn2
      · exact markBatch_mono G s.needs b p
          (hInv.needsClosed p (Or.inl h2) c hc hcn2)
    · exact markBatch_mono G s.needs b p
        (hInv.needsClosed p (Or.inr hp) c hc hcn2)

theorem filter_notmem_cons_of_not_mem (l : List String) (x : String) (pr : List String)
    (hx : x ∉ l) :
    l.filter (fun c => c ∉ x :: pr) = l.filter (fun c => c ∉ pr) := by
  apply List.filter_congr
  intro c hc
  have hcx : c ≠ x := fun h => hx (h ▸ hc)
  simp [List.mem_cons, hcx]

theorem length_filter_notmem_cons (l : List String) (hl : l.Nodup) (x : String)
    (pr : List String) (hx : x ∈ l) (hxp : x ∉ pr) :
    ((l.filter (fun c => c ∉ x :: pr)).length : Int) =
      ((l.filter (fun c => c ∉ pr)).length : Int) - 1 := by
  have hmain := length_filter_minus l hl (fun c => decide (c ∉ pr)) x hx
    (by simpa using hxp)
  simp only [] at hmain
  have hcong : l.filter (fun c => c ∉ x :: pr) =
      l.filter (fun i => decide ((decide (i ∉ pr) = true) ∧ i ≠ x)) := by
    apply List.filter_congr
    intro c _
    simp only [decide_eq_decide, List.mem_cons, decide_eq_true_eq]
    tauto
  rw [hcong]
  omega

theorem completeOne_eq (G : SchedGraph) (s : SchedState) (sid : String)
    (h : sid ∉ s.processed) :
    completeOne G s sid =
      (match G.parentOf sid with
       | none => { s with processed := sid :: s.processed }
       | some p =>
           if p ≠ "" ∧ p ∈ G.ids then
             (if s.indeg p - 1 = 0 then
               { s with
                 processed := sid :: s.processed
                 indeg := Function.update s.indeg p (s.indeg p - 1)
                 ready := s.ready ++ [p] }
              else
               { s with
                 processed := sid :: s.processed
                 indeg := Function.update s.indeg p (s.indeg p - 1) })
           else { s with processed := sid :: s.processed }) := by
  unfold completeOne
  rw [if_neg h]
  cases hpar : G.parentOf sid with
  | none => rfl
  | some p =>
      simp only []
      by_cases hcond : p ≠ "" ∧ p ∈ G.ids
      · simp only [if_pos hcond, Function.update_same]
      · simp only [if_neg hcond]

theorem schedIds_consume_perm (s : SchedState) (sid : String) (rest : List String)
    (pre post : List (List String))
    (hexe : s.executed = pre ++ (sid :: rest) :: post) :
    (schedIds { s with
        executed := pre ++ rest :: post
        processed := sid :: s.processed }).Perm (schedIds s) := by
  show (((s.ready ++ s.submitted.flatten) ++ (pre ++ rest :: post).flatten) ++
      (sid :: s.processed)).Perm
    (((s.ready ++ s.submitted.flatten) ++ s.executed.flatten) ++ s.processed)
  have hef : s.executed.flatten.Perm (sid :: (pre ++ rest :: post).flatten) := by
    rw [hexe]
    exact flatten_consume_perm pre post sid rest
  have h1 : (((s.ready ++ s.submitted.flatten) ++ s.executed.flatten) ++ s.processed).Perm
      ((((s.ready ++ s.submitted.flatten) ++ (sid :: (pre ++ rest :: post).flatten))) ++
        s.processed) :=
    List.Perm.append_right _ (List.Perm.append_left _ hef)
  have h2 : (((s.ready ++ s.submitted.flatten) ++ (sid :: (pre ++ rest :: post).flatten)) ++
      s.processed).Perm
      ((((s.ready ++ s.submitted.flatten) ++ (pre ++ rest :: post).flatten)) ++
        (sid :: s.processed)) := by
    have hmid1 : List.Perm
        ((s.ready ++ s.submitted.flatten) ++ (sid :: (pre ++ rest :: post).flatten))
        (sid :: ((s.ready ++ s.submitted.flatten) ++ (pre ++ rest :: post).flatten)) :=
      List.perm_middle
    refine (List.Perm.append_right _ hmid1).trans ?_
    show (sid :: (((s.ready ++ s.submitted.flatten) ++ (pre ++ rest :: post).flatten) ++
      s.processed)).Perm _
    exact List.perm_middle.symm
  exact (h1.trans h2).symm

/-- Consuming a completed id that contributes no parent edge and no
self-loop decrement preserves the invariant. -/
theorem schedInv_consume_plain (G : SchedGraph) (s : SchedState) (sid : String)
    (rest : List String) (pre post : List (List String)) (hInv : SchedInv G s)
    (hexe : s.executed = pre ++ (sid :: rest) :: post)
    (hnochild : ∀ q, sid ∉ G.children q)
    (hnoadj : ¬ (G.parentOf sid = some sid ∧ sid ≠ "")) :
    SchedInv G { s with
      executed := pre ++ rest :: post
      processed := sid :: s.processed } := by
  have hsidEf : sid ∈ s.executed.flatten := by
    rw [hexe]
    exact List.mem_flatten.mpr
      ⟨sid :: rest, List.mem_append_right _ (List.mem_cons_self _ _),
        List.mem_cons_self _ _⟩
  have hsidProc : sid ∉ s.processed :=
    fun h => schedIds_disj_exec_proc s hInv.nodupAll sid hsidEf h
  have hperm := schedIds_consume_perm s sid rest pre post hexe
  have hchildSid : ∀ c ∈ G.children sid, c ∈ s.processed :=
    hInv.childDone sid (mem_schedIds_of_exec s sid hsidEf)
  refine ⟨hperm.symm.nodup hInv.nodupAll, ?_, ?_, ?_, ?_, hInv.subNonempty, ?_, ?_⟩
  · intro x hx
    exact hInv.memIds x (hperm.mem_iff.mp hx)
  · intro p hp c hc
    exact List.mem_cons_of_mem _ (hInv.childDone p (hperm.mem_iff.mp hp) c hc)
  · intro q
    show s.indeg q = _
    have hfil : (G.children q).filter (fun c => c ∉ sid :: s.processed) =
        (G.children q).filter (fun c => c ∉ s.processed) :=
      filter_notmem_cons_of_not_mem _ sid _ (hnochild q)
    rw [hfil]
    have hadj : (if G.parentOf q = some q ∧ q ≠ "" ∧ q ∈ sid :: s.processed
          then (1 : Int) else 0) =
        (if G.parentOf q = some q ∧ q ≠ "" ∧ q ∈ s.processed then (1 : Int) else 0) := by
      rcases eq_or_ne q sid with rfl | hqs
      · rw [if_neg (fun hcontra => hnoadj ⟨hcontra.1, hcontra.2.1⟩),
          if_neg (fun hcontra => hsidProc hcontra.2.2)]
      · have hiff : q ∈ sid :: s.processed ↔ q ∈ s.processed := by
          simp [List.mem_cons, hqs]
        exact if_congr (and_congr Iff.rfl (and_congr Iff.rfl hiff)) rfl rfl
    rw [hadj]
    exact hInv.indegEq q
  · intro q hq hnq hdone
    have hqsid : q ≠ sid := fun h => hnq (h ▸ List.mem_cons_self _ _)
    have hnq' : q ∉ s.processed := fun h => hnq (List.mem_cons_of_mem _ h)
    have hdone' : ∀ c ∈ G.children q, c ∈ s.processed := by
      intro c hc
      rcases List.mem_cons.mp (hdone c hc) with h1 | h1
      · exact absurd (h1 ▸ hc) (hnochild q)
      · exact h1
    rcases hInv.zeroLoc q hq hnq' hdone' with h1 | h1 | h1
    · exact Or.inl h1
    · exact Or.inr (Or.inl h1)
    · refine Or.inr (Or.inr ?_)
      show q ∈ (pre ++ rest :: post).flatten
      have h2 := (flatten_consume_perm pre post sid rest).mem_iff.mp (hexe ▸ h1)
      rcases List.mem_cons.mp h2 with h3 | h3
      · exact absurd h3 hqsid
      · exact h3
  · intro q hq c hc hcn
    rcases hq with hq | hq
    · refine hInv.needsClosed q (Or.inl ?_) c hc hcn
      rw [hexe]
      exact (flatten_consume_perm pre post sid rest).mem_iff.mpr
        (List.mem_cons_of_mem _ hq)
    · rcases List.mem_cons.mp hq with rfl | hq2
      · exact hInv.needsClosed q (Or.inl hsidEf) c hc hcn
      · exact hInv.needsClosed q (Or.inr hq2) c hc hcn
  · intro q hq
    rcases List.mem_cons.mp hq with rfl | hq2
    · exact Acc.intro q (fun c hcrel => hInv.accProcessed c (hchildSid c hcrel))
    · exact hInv.accProcessed q hq2

/-- Consuming a completed id whose parent edge is live but whose parent
in-degree does not reach zero preserves the invariant. -/
theorem schedInv_consume_dec (G : SchedGraph) (hG : GraphWF G) (s : SchedState)
    (sid : String) (rest : List String) (pre post : List (List String))
    (p : String) (hInv : SchedInv G s)
    (hexe : s.executed = pre ++ (sid :: rest) :: post)
    (hpar : G.parentOf sid = some p) (hcond : p ≠ "" ∧ p ∈ G.ids)
    (hnz : s.indeg p - 1 ≠ 0) :
    SchedInv G { s with
      executed := pre ++ rest :: post
      processed := sid :: s.processed
      indeg := Function.update s.indeg p (s.indeg p - 1) } := by
  have hsidEf : sid ∈ s.executed.flatten := by
    rw [hexe]
    exact List.mem_flatten.mpr
      ⟨sid :: rest, List.mem_append_right _ (List.mem_cons_self _ _),
        List.mem_cons_self _ _⟩
  have hsidProc : sid ∉ s.processed :=
    fun h => schedIds_disj_exec_proc s hInv.nodupAll sid hsidEf h
  have hsidIds : sid ∈ G.ids := hInv.memIds sid (mem_schedIds_of_exec s sid hsidEf)
  have hperm := schedIds_consume_perm s sid rest pre post hexe
  have hchildSid : ∀ c ∈ G.children sid, c ∈ s.processed :=
    hInv.childDone sid (mem_schedIds_of_exec s sid hsidEf)
  have honly : ∀ q, sid ∈ G.children q → q = p := by
    intro q hq
    have hlink := (hG.mem_children_iff sid q).mp hq
    have := hlink.1.symm.trans hpar
    exact (Option.some_injective _ this.symm).symm
  refine ⟨hperm.symm.nodup hInv.nodupAll, ?_, ?_, ?_, ?_, hInv.subNonempty, ?_, ?_⟩
  · intro x hx
    exact hInv.memIds x (hperm.mem_iff.mp hx)
  · intro q hq c hc
    exact List.mem_cons_of_mem _ (hInv.childDone q (hperm.mem_iff.mp hq) c hc)
  · intro q
    show Function.update s.indeg p (s.indeg p - 1) q = _
    rcases eq_or_ne q p with rfl | hqp
    · rw [Function.update_same]
      have hold := hInv.indegEq q
      rcases eq_or_ne sid q with rfl | hsq
      · have hnc : sid ∉ G.children sid := by
          intro hmem2
          exact ((hG.mem_children_iff sid sid).mp hmem2).2.2.2.1 rfl
        rw [filter_notmem_cons_of_not_mem _ sid _ hnc]
        rw [if_pos ⟨hpar, hcond.1, List.mem_cons_self _ _⟩]
        rw [if_neg (fun hcontra => hsidProc hcontra.2.2)] at hold
        omega
      · have hsidChild : sid ∈ G.children q :=
          (hG.mem_children_iff sid q).mpr ⟨hpar, hcond.1, hcond.2, hsq, hsidIds⟩
        have hfil := length_filter_notmem_cons (G.children q) (hG.childrenNodup q)
          sid s.processed hsidChild hsidProc
        rw [hfil]
        have hqs : q ≠ sid := fun h => hsq h.symm
        have hiff : q ∈ sid :: s.processed ↔ q ∈ s.processed := by
          simp [List.mem_cons, hqs]
        rw [if_congr (and_congr Iff.rfl (and_congr Iff.rfl hiff)) rfl rfl]
        omega
    · rw [Function.update_noteq hqp]
      have hnc : sid ∉ G.children q := fun h => hqp (honly q h)
      rw [filter_notmem_cons_of_not_mem _ sid _ hnc]
      have hadj : (if G.parentOf q = some q ∧ q ≠ "" ∧ q ∈ sid :: s.processed
            then (1 : Int) else 0) =
          (if G.parentOf q = some q ∧ q ≠ "" ∧ q ∈ s.processed then (1 : Int) else 0) := by
        rcases eq_or_ne q sid with rfl | hqs
        · rw [if_neg, if_neg]
          · exact fun hcontra => hsidProc hcontra.2.2
          · intro hcontra
            exact hqp (Option.some_injective _ (hcontra.1.symm.trans hpar))
        · have hiff : q ∈ sid :: s.processed ↔ q ∈ s.processed := by
            simp [List.mem_cons, hqs]
          exact if_congr (and_congr Iff.rfl (and_congr Iff.rfl hiff)) rfl rfl
      rw [hadj]
      exact hInv.indegEq q
  · intro q hq hnq hdone
    have hqsid : q ≠ sid := fun h => hnq (h ▸ List.mem_cons_self _ _)
    have hnq' : q ∉ s.processed := fun h => hnq (List.mem_cons_of_mem _ h)
    by_cases hsc : sid ∈ G.children q
    · exfalso
      have hqp : q = p := honly q hsc
      subst hqp
      have hfilnil : (G.children q).filter (fun c => c ∉ sid :: s.processed) = [] := by
        rw [List.filter_eq_nil_iff]
        intro c hc
        simp only [decide_eq_true_eq, not_not]
        exact hdone c hc
      have hlen := length_filter_notmem_cons (G.children q) (hG.childrenNodup q)
        sid s.processed hsc hsidProc
      rw [hfilnil] at hlen
      have hold := hInv.indegEq q
      rw [if_neg (fun hcontra => hnq' hcontra.2.2)] at hold
      simp only [List.length_nil] at hlen
      omega
    · have hdone' : ∀ c ∈ G.children q, c ∈ s.processed := by
        intro c hc
        rcases List.mem_cons.mp (hdone c hc) with h1 | h1
        · exact absurd (h1 ▸ hc) hsc
        · exact h1
      rcases hInv.zeroLoc q hq hnq' hdone' with h1 | h1 | h1
      · exact Or.inl h1
      · exact Or.inr (Or.inl h1)
      · refine Or.inr (Or.inr ?_)
        show q ∈ (pre ++ rest :: post).flatten
        have h2 := (flatten_consume_perm pre post sid rest).mem_iff.mp (hexe ▸ h1)
        rcases List.mem_cons.mp h2 with h3 | h3
        · exact absurd h3 hqsid
        · exact h3
  · intro q hq c hc hcn
    rcases hq with hq | hq
    · refine hInv.needsClosed q (Or.inl ?_) c hc hcn
      rw [hexe]
      exact (flatten_consume_perm pre post sid rest).mem_iff.mpr
        (List.mem_cons_of_mem _ hq)
    · rcases List.mem_cons.mp hq with rfl | hq2
      · exact hInv.needsClosed q (Or.inl hsidEf) c hc hcn
      · exact hInv.needsClosed q (Or.inr hq2) c hc hcn
  · intro q hq
    rcases List.mem_cons.mp hq with rfl | hq2
    · exact Acc.intro q (fun c hcrel => hInv.accProcessed c (hchildSid c hcrel))
    · exact hInv.accProcessed q hq2

/-- Consuming a completed id whose parent edge is live and drives the parent
in-degree to zero enqueues the parent and preserves the invariant. -/
theorem schedInv_consume_enq (G : SchedGraph) (hG : GraphWF G) (s : SchedState)
    (sid : String) (rest : List String) (pre post : List (List String))
    (p : String) (hInv : SchedInv G s)
    (hexe : s.executed = pre ++ (sid :: rest) :: post)
    (hpar : G.parentOf sid = some p) (hcond : p ≠ "" ∧ p ∈ G.ids)
    (hz : s.indeg p - 1 = 0) :
    SchedInv G { s with
      executed := pre ++ rest :: post
      processed := sid :: s.processed
      indeg := Function.update s.indeg p (s.indeg p - 1)
      ready := s.ready ++ [p] } := by
  have hsidEf : sid ∈ s.executed.flatten := by
    rw [hexe]
    exact List.mem_flatten.mpr
      ⟨sid :: rest, List.mem_append_right _ (List.mem_cons_self _ _),
        List.mem_cons_self _ _⟩
  have hsidProc : sid ∉ s.processed :=
    fun h => schedIds_disj_exec_proc s hInv.nodupAll sid hsidEf h
  have hsidIds : sid ∈ G.ids := hInv.memIds sid (mem_schedIds_of_exec s sid hsidEf)
  have hchildSid : ∀ c ∈ G.children sid, c ∈ s.processed :=
    hInv.childDone sid (mem_schedIds_of_exec s sid hsidEf)
  have honly : ∀ q, sid ∈ G.children q → q = p := by
    intro q hq
    have hlink := (hG.mem_children_iff sid q).mp hq
    have := hlink.1.symm.trans hpar
    exact (Option.some_injective _ this.symm).symm
  have hfresh : p ∉ schedIds s := by
    intro hps
    have hfilnil : (G.children p).filter (fun c => c ∉ s.processed) = [] := by
      rw [List.filter_eq_nil_iff]
      intro c hc
      simp only [decide_eq_true_eq, not_not]
      exact hInv.childDone p hps c hc
    have hold := hInv.indegEq p
    rw [hfilnil] at hold
    simp only [List.length_nil, Nat.cast_zero] at hold
    split at hold <;> omega
  have hpsid : p ≠ sid := fun h =>
    hfresh (by rw [h]; exact mem_schedIds_of_exec s sid hsidEf)
  have hpnproc : p ∉ s.processed := fun h => hfresh (mem_schedIds_of_proc s p h)
  have hsidChild : sid ∈ G.children p :=
    (hG.mem_children_iff sid p).mpr
      ⟨hpar, hcond.1, hcond.2, fun h => hpsid h.symm, hsidIds⟩
  have hlen1 : ((G.children p).filter (fun c => c ∉ s.processed)).length = 1 := by
    have hold := hInv.indegEq p
    rw [if_neg (fun hcontra => hpnproc hcontra.2.2)] at hold
    omega
  have hfl : (G.children p).filter (fun c => c ∉ s.processed) = [sid] := by
    rcases List.length_eq_one.mp hlen1 with ⟨a, ha⟩
    have hsin : sid ∈ (G.children p).filter (fun c => c ∉ s.processed) :=
      List.mem_filter.mpr ⟨hsidChild, by simpa using hsidProc⟩
    rw [ha] at hsin
    have hsa : sid = a := List.mem_singleton.mp hsin
    rw [ha, ← hsa]
  have hchildp : ∀ c ∈ G.children p, c ∈ sid :: s.processed := by
    intro c hc
    by_cases hcp : c ∈ s.processed
    · exact List.mem_cons_of_mem _ hcp
    · have hcf : c ∈ (G.children p).filter (fun c => c ∉ s.processed) :=
        List.mem_filter.mpr ⟨hc, by simpa using hcp⟩
      rw [hfl] at hcf
      rw [List.mem_singleton.mp hcf]
      exact List.mem_cons_self _ _
  have hpermC : ((((s.ready ++ [p]) ++ s.submitted.flatten) ++
      (pre ++ rest :: post).flatten) ++ (sid :: s.processed)).Perm
      (p :: schedIds s) := by
    have h0 : (s.ready ++ [p]).Perm (p :: s.ready) :=
      List.perm_append_singleton p s.ready
    have h1 := List.Perm.append_right (sid :: s.processed)
      (List.Perm.append_right (pre ++ rest :: post).flatten
        (List.Perm.append_right s.submitted.flatten h0))
    refine h1.trans ?_
    show (p :: (((s.ready ++ s.submitted.flatten) ++ (pre ++ rest :: post).flatten) ++
      (sid :: s.processed))).Perm _
    exact (schedIds_consume_perm s sid rest pre post hexe).cons p
  refine ⟨?_, ?_, ?_, ?_, ?_, hInv.subNonempty, ?_, ?_⟩
  · exact hpermC.symm.nodup (List.nodup_cons.mpr ⟨hfresh, hInv.nodupAll⟩)
  · intro x hx
    rcases List.mem_cons.mp (hpermC.mem_iff.mp hx) with rfl | h2
    · exact hcond.2
    · exact hInv.memIds x h2
  · intro q hq c hc
    rcases List.mem_cons.mp (hpermC.mem_iff.mp hq) with rfl | h2
    · exact hchildp c hc
    · exact List.mem_cons_of_mem _ (hInv.childDone q h2 c hc)
  · intro q
    show Function.update s.indeg p (s.indeg p - 1) q = _
    rcases eq_or_ne q p with rfl | hqp
    · rw [Function.update_same]
      have hold := hInv.indegEq q
      have hfil := length_filter_notmem_cons (G.children q) (hG.childrenNodup q)
        sid s.processed hsidChild hsidProc
      rw [hfil]
      have hqs : q ≠ sid := hpsid
      have hiff : q ∈ sid :: s.processed ↔ q ∈ s.processed := by
        simp [List.mem_cons, hqs]
      rw [if_congr (and_congr Iff.rfl (and_congr Iff.rfl hiff)) rfl rfl]
      omega
    · rw [Function.update_noteq hqp]
      have hnc : sid ∉ G.children q := fun h => hqp (honly q h)
      rw [filter_notmem_cons_of_not_mem _ sid _ hnc]
      have hadj : (if G.parentOf q = some q ∧ q ≠ "" ∧ q ∈ sid :: s.processed
            then (1 : Int) else 0) =
          (if G.parentOf q = some q ∧ q ≠ "" ∧ q ∈ s.processed then (1 : Int) else 0) := by
        rcases eq_or_ne q sid with rfl | hqs
        · rw [if_neg, if_neg]
          · exact fun hcontra => hsidProc hcontra.2.2
          · intro hcontra
            exact hqp (Option.some_injective _ (hcontra.1.symm.trans hpar))
        · have hiff : q ∈ sid :: s.processed ↔ q ∈ s.processed := by
            simp [List.mem_cons, hqs]
          exact if_congr (and_congr Iff.rfl (and_congr Iff.rfl hiff)) rfl rfl
      rw [hadj]
      exact hInv.indegEq q
  · intro q hq hnq hdone
    by_cases hsc : sid ∈ G.children q
    · have hqp : q = p := honly q hsc
      subst hqp
      exact Or.inl (List.mem_append_right _ (List.mem_singleton.mpr rfl))
    · have hqsid : q ≠ sid := fun h => hnq (h ▸ List.mem_cons_self _ _)
      have hnq' : q ∉ s.processed := fun h => hnq (List.mem_cons_of_mem _ h)
      have hdone' : ∀ c ∈ G.children q, c ∈ s.processed := by
        intro c hc
        rcases List.mem_cons.mp (hdone c hc) with h1 | h1
        · exact absurd (h1 ▸ hc) hsc
        · exact h1
      rcases hInv.zeroLoc q hq hnq' hdone' with h1 | h1 | h1
      · exact Or.inl (List.mem_append_left _ h1)
      · exact Or.inr (Or.inl h1)
      · refine Or.inr (Or.inr ?_)
        show q ∈ (pre ++ rest :: post).flatten
        have h2 := (flatten_consume_perm pre post sid rest).mem_iff.mp (hexe ▸ h1)
        rcases List.mem_cons.mp h2 with h3 | h3
        · exact absurd h3 hqsid
        · exact h3
  · intro q hq c hc hcn
    rcases hq with hq | hq
    · refine hInv.needsClosed q (Or.inl ?_) c hc hcn
      rw [hexe]
      exact (flatten_consume_perm pre post sid rest).mem_iff.mpr
        (List.mem_cons_of_mem _ hq)
    · rcases List.mem_cons.mp hq with rfl | hq2
      · exact hInv.needsClosed q (Or.inl hsidEf) c hc hcn
      · exact hInv.needsClosed q (Or.inr hq2) c hc hcn
  · intro q hq
    rcases List.mem_cons.mp hq with rfl | hq2
    · exact Acc.intro q (fun c hcrel => hInv.accProcessed c (hchildSid c hcrel))
    · exact hInv.accProcessed q hq2

/-- The consume step preserves the scheduler invariant. -/
theorem schedInv_consume (G : SchedGraph) (hG : GraphWF G) (s : SchedState)
    (sid : String) (rest : List String) (pre post : List (List String))
    (hInv : SchedInv G s) (hexe : s.executed = pre ++ (sid :: rest) :: post) :
    SchedInv G (completeOne G { s with executed := pre ++ rest :: post } sid) := by
  have hsidEf : sid ∈ s.executed.flatten := by
    rw [hexe]
    exact List.mem_flatten.mpr
      ⟨sid :: rest, List.mem_append_right _ (List.mem_cons_self _ _),
        List.mem_cons_self _ _⟩
  have hsidProc : sid ∉ s.processed :=
    fun h => schedIds_disj_exec_proc s hInv.nodupAll sid hsidEf h
  have hsidIds : sid ∈ G.ids := hInv.memIds sid (mem_schedIds_of_exec s sid hsidEf)
  have heq := completeOne_eq G { s with executed := pre ++ rest :: post } sid hsidProc
  rw [heq]
  simp only []
  cases hpar : G.parentOf sid with
  | none =>
      refine schedInv_consume_plain G s sid rest pre post hInv hexe ?_ ?_
      · intro q hq
        have hlink := (hG.mem_children_iff sid q).mp hq
        have h1 := hlink.1
        rw [hpar] at h1
        exact Option.noConfusion h1
      · intro hcontra
        have h1 := hcontra.1
        rw [hpar] at h1
        exact Option.noConfusion h1
  | some p =>
      simp only []
      by_cases hcond : p ≠ "" ∧ p ∈ G.ids
      · rw [if_pos hcond]
        by_cases hz : s.indeg p - 1 = 0
        · rw [if_pos hz]
          exact schedInv_consume_enq G hG s sid rest pre post p hInv hexe hpar
            hcond hz
        · rw [if_neg hz]
          exact schedInv_consume_dec G hG s sid rest pre post p hInv hexe hpar
            hcond hz
      · rw [if_neg hcond]
        refine schedInv_consume_plain G s sid rest pre post hInv hexe ?_ ?_
        · intro q hq
          have hlink := (hG.mem_children_iff sid q).mp hq
          have hqp : q = p := by
            have := hlink.1.symm.trans hpar
            exact (Option.some_injective _ this.symm).symm
          subst hqp
          exact hcond ⟨hlink.2.1, hlink.2.2.1⟩
        · intro hcontra
          have hps : p = sid := Option.some_injective _ (hpar.symm.trans hcontra.1)
          subst hps
          exact hcond ⟨hcontra.2, hsidIds⟩

/-- Every scheduler step preserves the invariant (for positive batch size). -/
theorem schedInv_step (G : SchedGraph) (hG : GraphWF G) (bs : Nat) (hbs : 0 < bs)
    (s t : SchedState) (hInv : SchedInv G s) (hstep : SchedStep G bs s t) :
    SchedInv G t := by
  cases hstep with
  | submit h => exact schedInv_submit G bs hbs s hInv h
  | execBatch b h => exact schedInv_exec G s b hInv h
  | consumeOne sid rest pre post h =>
      exact schedInv_consume G hG s sid rest pre post hInv h

/-- Every reachable scheduler state satisfies the invariant. -/
theorem schedInv_reach (G : SchedGraph) (hG : GraphWF G) (bs : Nat) (hbs : 0 < bs)
    (seed : List String) (s : SchedState) (hreach : SchedReach G bs seed s) :
    SchedInv G s := by
  induction hreach with
  | refl => exact schedInv_init G hG seed
  | tail _ hstep ih => exact schedInv_step G hG bs hbs _ _ ih hstep

theorem completeOne_needs (G : SchedGraph) (s : SchedState) (sid : String) :
    (completeOne G s sid).needs = s.needs := by
  unfold completeOne
  by_cases h : sid ∈ s.processed
  · rw [if_pos h]
  · rw [if_neg h]
    simp only []
    cases G.parentOf sid with
    | none => rfl
    | some p =>
        simp only []
        split
        · split <;> rfl
        · rfl

/-- `needs_llm` only grows along scheduler steps. -/
theorem sched_needs_mono (G : SchedGraph) (bs : Nat) (s t : SchedState)
    (hstep : SchedStep G bs s t) (x : String) (hx : x ∈ s.needs) : x ∈ t.needs := by
  cases hstep with
  | submit h => exact hx
  | execBatch b h => exact markBatch_mono G s.needs b x hx
  | consumeOne sid rest pre post h =>
      rw [completeOne_needs]
      exact hx

/-- Every seed member stays in `needs_llm` at every reachable state. -/
theorem sched_needs_reach (G : SchedGraph) (bs : Nat) (seed : List String)
    (s : SchedState) (hreach : SchedReach G bs seed s) (x : String) (hx : x ∈ seed) :
    x ∈ s.needs := by
  induction hreach with
  | refl => exact hx
  | tail _ hstep ih => exact sched_needs_mono G bs _ _ hstep x ih

theorem exists_consume_decomp (L : List (List String)) (h : L.flatten ≠ []) :
    ∃ pre x rest post, L = pre ++ (x :: rest) :: post := by
  induction L with
  | nil => simp at h
  | cons b L ih =>
      cases b with
      | nil =>
          have h2 : L.flatten ≠ [] := by simpa using h
          obtain ⟨pre, x, rest, post, hd⟩ := ih h2
          exact ⟨[] :: pre, x, rest, post, by rw [List.cons_append, hd]⟩
      | cons x rest => exact ⟨[], x, rest, L, rfl⟩

/-- A state with nothing ready, submitted or executed admits no step. -/
theorem stuck_of_empty (G : SchedGraph) (bs : Nat) (s : SchedState)
    (h1 : s.ready = []) (h2 : s.submitted = []) (h3 : s.executed.flatten = []) :
    ∀ t, ¬ SchedStep G bs s t := by
  intro t hstep
  cases hstep with
  | submit h => exact h h1
  | execBatch b h =>
      rw [h2] at h
      cases h
  | consumeOne sid rest pre post h =>
      have : sid ∈ s.executed.flatten := by
        rw [h]
        exact List.mem_flatten.mpr
          ⟨sid :: rest, List.mem_append_right _ (List.mem_cons_self _ _),
            List.mem_cons_self _ _⟩
      rw [h3] at this
      cases this

/-- A stuck state has nothing ready, submitted or executed. -/
theorem stuck_empty (G : SchedGraph) (bs : Nat) (s : SchedState)
    (hstuck : ∀ t, ¬ SchedStep G bs s t) :
    s.ready = [] ∧ s.submitted = [] ∧ s.executed.flatten = [] := by
  refine ⟨?_, ?_, ?_⟩
  · by_contra h
    exact hstuck _ (SchedStep.submit s h)
  · by_contra h
    rcases List.exists_cons_of_ne_nil h with ⟨b, rest, hb⟩
    refine hstuck _ (SchedStep.execBatch s b ?_)
    rw [hb]
    exact List.mem_cons_self _ _
  · by_contra h
    obtain ⟨pre, x, rest, post, hd⟩ := exists_consume_decomp s.executed h
    exact hstuck _ (SchedStep.consumeOne s x rest pre post hd)

/-- At a reachable stuck state, every non-cyclic node of the graph has been
processed. -/
theorem stuck_acc_processed (G : SchedGraph) (hG : GraphWF G) (bs : Nat)
    (hbs : 0 < bs) (seed : List String) (s : SchedState)
    (hreach : SchedReach G bs seed s) (hstuck : ∀ t, ¬ SchedStep G bs s t) :
    ∀ p, p ∈ G.ids → Acc (childRel G) p → p ∈ s.processed := by
  have hInv := schedInv_reach G hG bs hbs seed s hreach
  obtain ⟨hr, hs, he⟩ := stuck_empty G bs s hstuck
  intro p hpid hacc
  induction hacc with
  | intro q hq ih =>
      by_cases hqp : q ∈ s.processed
      · exact hqp
      · exfalso
        have hdone : ∀ c ∈ G.children q, c ∈ s.processed := by
          intro c hc
          have hlink := (hG.mem_children_iff c q).mp hc
          exact ih c hc hlink.2.2.2.2
        rcases hInv.zeroLoc q hpid hqp hdone with h1 | h1 | h1
        · rw [hr] at h1
          cases h1
        · rw [hs] at h1
          cases h1
        · rw [he] at h1
          cases h1

theorem schedMeasure_submit (G : SchedGraph) (bs : Nat) (hbs : 0 < bs) (s : SchedState)
    (h : s.ready ≠ []) :
    schedMeasure G { s with
      ready := s.ready.drop bs
      submitted := s.ready.take bs :: s.submitted } < schedMeasure G s := by
  have hperm := schedIds_submit_perm s bs
  have hu : G.ids.filter (fun i => i ∉ schedIds { s with
        ready := s.ready.drop bs
        submitted := s.ready.take bs :: s.submitted }) =
      G.ids.filter (fun i => i ∉ schedIds s) :=
    List.filter_congr (fun c _ => by
      simp only [decide_eq_decide]
      exact not_congr hperm.mem_iff)
  unfold schedMeasure
  rw [hu]
  simp only [List.flatten_cons, List.length_append, List.length_drop, List.length_take]
  have hr : 0 < s.ready.length := List.length_pos.mpr h
  omega

theorem schedMeasure_exec (G : SchedGraph) (s : SchedState) (b : List String)
    (hInv : SchedInv G s) (hb : b ∈ s.submitted) :
    schedMeasure G { s with
      submitted := s.submitted.erase b
      executed := b :: s.executed
      needs := markBatch G s.needs b } < schedMeasure G s := by
  have hperm := schedIds_exec_perm s b (markBatch G s.needs b) hb
  have hu : G.ids.filter (fun i => i ∉ schedIds { s with
        submitted := s.submitted.erase b
        executed := b :: s.executed
        needs := markBatch G s.needs b }) =
      G.ids.filter (fun i => i ∉ schedIds s) :=
    List.filter_congr (fun c _ => by
      simp only [decide_eq_decide]
      exact not_congr hperm.mem_iff)
  have hflat : s.submitted.flatten.length = b.length + (s.submitted.erase b).flatten.length := by
    have := (flatten_erase_perm s.submitted b hb).length_eq
    simpa using this
  have hb1 : 0 < b.length := List.length_pos.mpr (hInv.subNonempty b hb)
  unfold schedMeasure
  rw [hu]
  simp only [List.flatten_cons, List.length_append]
  omega

theorem schedMeasure_consume (G : SchedGraph) (hG : GraphWF G) (s : SchedState)
    (sid : String) (rest : List String) (pre post : List (List String))
    (hInv : SchedInv G s) (hexe : s.executed = pre ++ (sid :: rest) :: post) :
    schedMeasure G (completeOne G { s with executed := pre ++ rest :: post } sid) <
      schedMeasure G s := by
  have hsidEf : sid ∈ s.executed.flatten := by
    rw [hexe]
    exact List.mem_flatten.mpr
      ⟨sid :: rest, List.mem_append_right _ (List.mem_cons_self _ _),
        List.mem_cons_self _ _⟩
  have hsidProc : sid ∉ s.processed :=
    fun h => schedIds_disj_exec_proc s hInv.nodupAll sid hsidEf h
  have hefp : s.executed.flatten.Perm (sid :: (pre ++ rest :: post).flatten) := by
    rw [hexe]
    exact flatten_consume_perm pre post sid rest
  have hlen : s.executed.flatten.length = (pre ++ rest :: post).flatten.length + 1 := by
    have := hefp.length_eq
    simpa using this
  have hpermA := schedIds_consume_perm s sid rest pre post hexe
  have heq := completeOne_eq G { s with executed := pre ++ rest :: post } sid hsidProc
  rw [heq]
  simp only []
  cases hpar : G.parentOf sid with
  | none =>
      have hu : G.ids.filter (fun i => i ∉ schedIds { s with
            executed := pre ++ rest :: post
            processed := sid :: s.processed }) =
          G.ids.filter (fun i => i ∉ schedIds s) :=
        List.filter_congr (fun c _ => by
          simp only [decide_eq_decide]
          exact not_congr hpermA.mem_iff)
      unfold schedMeasure
      simp only []
      rw [hu]
      omega
  | some p =>
      simp only []
      by_cases hcond : p ≠ "" ∧ p ∈ G.ids
      · rw [if_pos hcond]
        by_cases hz : s.indeg p - 1 = 0
        · rw [if_pos hz]
          have hfresh : p ∉ schedIds s := by
            intro hps
            have hfilnil : (G.children p).filter (fun c => c ∉ s.processed) = [] := by
              rw [List.filter_eq_nil_iff]
              intro c hc
              simp only [decide_eq_true_eq, not_not]
              exact hInv.childDone p hps c hc
            have hold := hInv.indegEq p
            rw [hfilnil] at hold
            simp only [List.length_nil, Nat.cast_zero] at hold
            split at hold <;> omega
          have hpermC : ((((s.ready ++ [p]) ++ s.submitted.flatten) ++
              (pre ++ rest :: post).flatten) ++ (sid :: s.processed)).Perm
              (p :: schedIds s) := by
            have h0 : (s.ready ++ [p]).Perm (p :: s.ready) :=
              List.perm_append_singleton p s.ready
            have h1 := List.Perm.append_right (sid :: s.processed)
              (List.Perm.append_right (pre ++ rest :: post).flatten
                (List.Perm.append_right s.submitted.flatten h0))
            refine h1.trans ?_
            show (p :: (((s.ready ++ s.submitted.flatten) ++
              (pre ++ rest :: post).flatten) ++ (sid :: s.processed))).Perm _
            exact hpermA.cons p
          have hu : G.ids.filter (fun i => i ∉ schedIds { s with
                executed := pre ++ rest :: post
                processed := sid :: s.processed
                indeg := Function.update s.indeg p (s.indeg p - 1)
                ready := s.ready ++ [p] }) =
              G.ids.filter (fun i => i ∉ p :: schedIds s) :=
            List.filter_congr (fun c _ => by
              simp only [decide_eq_decide]
              exact not_congr hpermC.mem_iff)
          have hcount := length_filter_notmem_cons G.ids hG.idsNodup p (schedIds s)
            hcond.2 hfresh
          unfold schedMeasure
          simp only []
          rw [hu]
          simp only [List.length_append, List.length_cons, List.length_nil]
          omega
        · rw [if_neg hz]
          have hu : G.ids.filter (fun i => i ∉ schedIds { s with
                executed := pre ++ rest :: post
                processed := sid :: s.processed
                indeg := Function.update s.indeg p (s.indeg p - 1) }) =
              G.ids.filter (fun i => i ∉ schedIds s) :=
            List.filter_congr (fun c _ => by
              simp only [decide_eq_decide]
              exact not_congr hpermA.mem_iff)
          unfold schedMeasure
          simp only []
          rw [hu]
          omega
      · rw [if_neg hcond]
        have hu : G.ids.filter (fun i => i ∉ schedIds { s with
              executed := pre ++ rest :: post
              processed := sid :: s.processed }) =
            G.ids.filter (fun i => i ∉ schedIds s) :=
          List.filter_congr (fun c _ => by
            simp only [decide_eq_decide]
            exact not_congr hpermA.mem_iff)
        unfold schedMeasure
        simp only []
        rw [hu]
        omega

/-- Every scheduler step strictly decreases the measure. -/
theorem schedMeasure_decreases (G : SchedGraph) (hG : GraphWF G) (bs : Nat)
    (hbs : 0 < bs) (s t : SchedState) (hInv : SchedInv G s)
    (hstep : SchedStep G bs s t) : schedMeasure G t < schedMeasure G s := by
  cases hstep with
  | submit h => exact schedMeasure_submit G bs hbs s h
  | execBatch b h => exact schedMeasure_exec G s b hInv h
  | consumeOne sid rest pre post h =>
      exact schedMeasure_consume G hG s sid rest pre post hInv h

/-- The scheduler admits no infinite run from any initial state. -/
theorem sched_no_infinite_run (G : SchedGraph) (hG : GraphWF G) (bs : Nat)
    (hbs : 0 < bs) (seed : List String) :
    ¬ ∃ f : ℕ → SchedState, f 0 = initState G seed ∧
        ∀ n, SchedStep G bs (f n) (f (n + 1)) := by
  rintro ⟨f, hf0, hfs⟩
  have hreach : ∀ n, SchedReach G bs seed (f n) := by
    intro n
    induction n with
    | zero =>
        rw [hf0]
        exact Relation.ReflTransGen.refl
    | succ n ih => exact Relation.ReflTransGen.tail ih (hfs n)
  have hdec : ∀ n, schedMeasure G (f (n + 1)) < schedMeasure G (f n) := fun n =>
    schedMeasure_decreases G hG bs hbs (f n) (f (n + 1))
      (schedInv_reach G hG bs hbs seed (f n) (hreach n)) (hfs n)
  have hle : ∀ n, schedMeasure G (f n) + n ≤ schedMeasure G (f 0) := by
    intro n
    induction n with
    | zero => simp
    | succ n ih =>
        have := hdec n
        omega
  have := hle (schedMeasure G (f 0) + 1)
  omega

theorem C1accL : Acc (childRel C1G) "L" := by
  refine Acc.intro _ ?_
  intro c hc
  exact absurd (show c ∈ ([] : List String) from hc) (List.not_mem_nil c)

theorem C1accM : Acc (childRel C1G) "M" := by
  refine Acc.intro _ ?_
  intro c hc
  have h2 : c = "L" := List.mem_singleton.mp (show c ∈ (["L"] : List String) from hc)
  rw [h2]
  exact C1accL

theorem C1accF : Acc (childRel C1G) "F" := by
  refine Acc.intro _ ?_
  intro c hc
  have h2 : c = "M" := List.mem_singleton.mp (show c ∈ (["M"] : List String) from hc)
  rw [h2]
  exact C1accM

/-- The terminal state of the chain scenario is reachable with batch size 1. -/
theorem C1reach : SchedReach C1G 1 C1seed C1final := by
  unfold SchedReach
  refine Relation.ReflTransGen.head (SchedStep.submit _ (by decide)) ?_
  refine Relation.ReflTransGen.head (SchedStep.execBatch _ ["L"] (by decide)) ?_
  refine Relation.ReflTransGen.head (SchedStep.consumeOne _ "L" [] [] [] (by decide)) ?_
  refine Relation.ReflTransGen.head (SchedStep.submit _ (by decide)) ?_
  refine Relation.ReflTransGen.head (SchedStep.execBatch _ ["M"] (by decide)) ?_
  refine Relation.ReflTransGen.head (SchedStep.consumeOne _ "M" [] [] [[]] (by decide)) ?_
  refine Relation.ReflTransGen.head (SchedStep.submit _ (by decide)) ?_
  refine Relation.ReflTransGen.head (SchedStep.execBatch _ ["F"] (by decide)) ?_
  refine Relation.ReflTransGen.head (SchedStep.consumeOne _ "F" [] [] [[], []] (by decide)) ?_
  exact Relation.ReflTransGen.refl

/-- The terminal state of the chain scenario admits no further step. -/
theorem C1stuck : ∀ t, ¬ SchedStep C1G 1 C1final t :=
  stuck_of_empty C1G 1 C1final rfl rfl rfl

/-- C1: In the hierarchical summarization scheduler, a content change in a
leaf snippet seeds `needs_llm`, membership in `needs_llm` propagates to every
ancestor along the containment chain (each ancestor above no cycle is marked
by the time the scheduler is stuck), and the completion order respects the
containment partial order: in every reachable state, a snippet sitting in a
submitted batch has all of its children already completed. -/
theorem summarizer_needs_propagation_and_order
    (snippets : List CodeSnippet) (changed_files : List String) (bs : Nat)
    (hbs : 0 < bs) (sn : CodeSnippet) (anc : List String)
    (hsn : sn ∈ dedupe_by_id snippets)
    (hch : inChangedFiles changed_files sn = true)
    (hchain : List.Chain (parentLink (buildSchedGraph snippets)) sn.id anc)
    (hacc : ∀ a ∈ anc, Acc (childRel (buildSchedGraph snippets)) a)
    (s : SchedState)
    (hreach : SchedReach (buildSchedGraph snippets) bs
      (needsSeed snippets changed_files) s)
    (hstuck : ∀ t, ¬ SchedStep (buildSchedGraph snippets) bs s t) :
    (∀ s2, SchedReach (buildSchedGraph snippets) bs
        (needsSeed snippets changed_files) s2 →
      ∀ p ∈ s2.submitted.flatten, ∀ c ∈ (buildSchedGraph snippets).children p,
        c ∈ s2.processed) ∧
    sn.id ∈ s.needs ∧ (∀ a ∈ anc, a ∈ s.needs) := by
  have hG := buildSchedGraph_wf snippets
  have hInv := schedInv_reach _ hG bs hbs _ s hreach
  have hseed : sn.id ∈ needsSeed snippets changed_files := by
    unfold needsSeed
    refine List.mem_map.mpr ⟨sn, List.mem_filter.mpr ⟨hsn, ?_⟩, rfl⟩
    simp only [decide_eq_true_eq]
    exact Or.inl hch
  have hleaf : sn.id ∈ s.needs := sched_needs_reach _ bs _ s hreach sn.id hseed
  have hstep1 : ∀ a b, parentLink (buildSchedGraph snippets) a b → a ∈ s.needs →
      Acc (childRel (buildSchedGraph snippets)) b → b ∈ s.needs := by
    intro a b hlink ha haccb
    have hbproc : b ∈ s.processed :=
      stuck_acc_processed _ hG bs hbs _ s hreach hstuck b hlink.2.2.1 haccb
    exact hInv.needsClosed b (Or.inr hbproc) a
      ((hG.mem_children_iff a b).mpr hlink) ha
  refine ⟨?_, hleaf, ?_⟩
  · intro s2 hreach2 p hp c hc
    have hInv2 := schedInv_reach _ hG bs hbs _ s2 hreach2
    exact hInv2.childDone p (mem_schedIds_of_sub s2 p hp) c hc
  · suffices hall : ∀ (cur : String) (l : List String), cur ∈ s.needs →
        List.Chain (parentLink (buildSchedGraph snippets)) cur l →
        (∀ a ∈ l, Acc (childRel (buildSchedGraph snippets)) a) →
        ∀ a ∈ l, a ∈ s.needs from hall sn.id anc hleaf hchain hacc
    intro cur l
    induction l generalizing cur with
    | nil =>
        intro _ _ _ a ha
        cases ha
    | cons b rest2 ih =>
        intro hcur hchain2 haccl a ha
        obtain ⟨hlink, hchain3⟩ := List.chain_cons.mp hchain2
        have hb : b ∈ s.needs :=
          hstep1 cur b hlink hcur (haccl b (List.mem_cons_self _ _))
        rcases List.mem_cons.mp ha with rfl | ha2
        · exact hb
        · exact ih b hb hchain3 (fun x hx => haccl x (List.mem_cons_of_mem _ hx)) a ha2

theorem summarizer_needs_propagation_and_order_witness :
    (0 < 1 ∧ inChangedFiles ["f.py"] C1snipL = true) ∧
    ((∀ s2, SchedReach (buildSchedGraph C1snips) 1
        (needsSeed C1snips ["f.py"]) s2 →
      ∀ p ∈ s2.submitted.flatten, ∀ c ∈ (buildSchedGraph C1snips).children p,
        c ∈ s2.processed) ∧
    C1snipL.id ∈ C1final.needs ∧ (∀ a ∈ ["M", "F"], a ∈ C1final.needs)) := by
  refine ⟨⟨by decide, by decide⟩, ?_⟩
  refine summarizer_needs_propagation_and_order C1snips ["f.py"] 1 (by decide)
    C1snipL ["M", "F"] (by decide) (by decide) ?_ ?_ C1final C1reach C1stuck
  · exact List.Chain.cons ⟨by decide, by decide, by decide, by decide, by decide⟩
      (List.Chain.cons ⟨by decide, by decide, by decide, by decide, by decide⟩
        List.Chain.nil)
  · intro a ha
    rcases List.mem_cons.mp ha with rfl | ha2
    · exact C1accM
    · rcases List.mem_cons.mp ha2 with rfl | ha3
      · exact C1accF
      · cases ha3

/-- C2: For every snippet list given to the summarization scheduler —
including lists with a self-referential parent link or a mutual-parent
cycle — no node is its own child in the dependency graph (self-parent edges
are broken), the scheduling loop admits no infinite run, and at every
reachable stuck state the processed set is exactly the set of non-cyclic
nodes (the ids accessible under the child relation), so cyclic members are
left unsummarized while all non-cyclic snippets complete. -/
theorem scheduler_cycle_safe_and_terminates
    (snippets : List CodeSnippet) (changed_files : List String) (bs : Nat)
    (hbs : 0 < bs) :
    (∀ p, p ∉ (buildSchedGraph snippets).children p) ∧
    (¬ ∃ f : ℕ → SchedState,
        f 0 = initState (buildSchedGraph snippets)
          (needsSeed snippets changed_files) ∧
        ∀ n, SchedStep (buildSchedGraph snippets) bs (f n) (f (n + 1))) ∧
    (∀ s, SchedReach (buildSchedGraph snippets) bs
        (needsSeed snippets changed_files) s →
      (∀ t, ¬ SchedStep (buildSchedGraph snippets) bs s t) →
      ∀ p, p ∈ s.processed ↔
        (p ∈ (buildSchedGraph snippets).ids ∧
          Acc (childRel (buildSchedGraph snippets)) p)) := by
  have hG := buildSchedGraph_wf snippets
  refine ⟨?_, ?_, ?_⟩
  · intro p hp
    exact ((hG.mem_children_iff p p).mp hp).2.2.2.1 rfl
  · exact sched_no_infinite_run _ hG bs hbs _
  · intro s hreach hstuck p
    constructor
    · intro hp
      have hInv := schedInv_reach _ hG bs hbs _ s hreach
      exact ⟨hInv.memIds p (mem_schedIds_of_proc s p hp), hInv.accProcessed p hp⟩
    · rintro ⟨hid, hacc⟩
      exact stuck_acc_processed _ hG bs hbs _ s hreach hstuck p hid hacc

theorem scheduler_cycle_safe_and_terminates_witness :
    0 < 2 ∧
    ((∀ p, p ∉ (buildSchedGraph C2snips).children p) ∧
    (¬ ∃ f : ℕ → SchedState,
        f 0 = initState (buildSchedGraph C2snips)
          (needsSeed C2snips ["a.py"]) ∧
        ∀ n, SchedStep (buildSchedGraph C2snips) 2 (f n) (f (n + 1))) ∧
    (∀ s, SchedReach (buildSchedGraph C2snips) 2
        (needsSeed C2snips ["a.py"]) s →
      (∀ t, ¬ SchedStep (buildSchedGraph C2snips) 2 s t) →
      ∀ p, p ∈ s.processed ↔
        (p ∈ (buildSchedGraph C2snips).ids ∧
          Acc (childRel (buildSchedGraph C2snips)) p))) :=
  ⟨by decide, scheduler_cycle_safe_and_terminates C2snips ["a.py"] 2 (by decide)⟩
